import Mathlib

/-!
Verification of the usage aggregation & time-bucketing engine of the
billing server (source: billing-api/billing_server/billing/__init__.py).

Python datetimes are modelled by `DateTime`: a count of days since
2024-01-01 (which was a Monday) together with the microsecond of the day.
Python's datetime comparison is lexicographic on the calendar fields,
which coincides with the lexicographic order on (days, tod).
Calendar field access (year/month/day, used by the bucket-granularity
functions of get_bucket_functions) is provided by the proleptic-Gregorian
conversions `fromEpochDays` / `toEpochDays`.

The file is organised as: all definitions (the embedding), then all
theorems.
-/

namespace Billing

set_option maxRecDepth 8000

/-- Microseconds in a day: the time-of-day field of a real Python
datetime is strictly below this bound. -/
def microsPerDay : Nat := 86400000000

/-- A Python `datetime`: days since 2024-01-01 plus microsecond of day. -/
structure DateTime where
  days : Int
  tod : Nat
  deriving DecidableEq, Repr

/-- A `DateTime` that a real Python `datetime` can denote (time of day in
range). -/
def DateTime.ValidT (t : DateTime) : Prop := t.tod < microsPerDay

instance (t : DateTime) : Decidable t.ValidT := by
  unfold DateTime.ValidT; infer_instance

/-- Python datetime `<`: lexicographic on (days, time-of-day). -/
def dtLt (a b : DateTime) : Prop :=
  a.days < b.days ∨ (a.days = b.days ∧ a.tod < b.tod)

/-- Python datetime `<=`. -/
def dtLe (a b : DateTime) : Prop := dtLt a b ∨ a = b

instance (a b : DateTime) : Decidable (dtLt a b) := by
  unfold dtLt; infer_instance

instance (a b : DateTime) : Decidable (dtLe a b) := by
  unfold dtLe; infer_instance

/-- Python `min` on two datetimes (returns the first on ties; since
datetime equality is structural this choice is value-irrelevant). -/
def dtMin (a b : DateTime) : DateTime := if dtLt b a then b else a

/-- A calendar date (year, month, day), the fields Python exposes as
`.year`, `.month`, `.day`. -/
structure Civil where
  y : Int
  m : Nat
  d : Nat
  deriving DecidableEq, Repr, BEq

/-- Gregorian leap-year rule. -/
def isLeap (y : Int) : Bool :=
  (y % 4 == 0 && y % 100 != 0) || y % 400 == 0

/-- Number of days in a month. -/
def daysInMonth (y : Int) (m : Nat) : Nat :=
  if m = 2 then (if isLeap y then 29 else 28)
  else if m = 4 ∨ m = 6 ∨ m = 9 ∨ m = 11 then 30
  else 31

/-- A calendar date that actually exists. -/
def Civil.Valid (c : Civil) : Prop :=
  1 ≤ c.m ∧ c.m ≤ 12 ∧ 1 ≤ c.d ∧ c.d ≤ daysInMonth c.y c.m

instance (c : Civil) : Decidable c.Valid := by
  unfold Civil.Valid; infer_instance

/-- The next calendar day. -/
def succDay (c : Civil) : Civil :=
  if c.d < daysInMonth c.y c.m then ⟨c.y, c.m, c.d + 1⟩
  else if c.m < 12 then ⟨c.y, c.m + 1, 1⟩
  else ⟨c.y + 1, 1, 1⟩

/-- The previous calendar day. -/
def predDay (c : Civil) : Civil :=
  if 2 ≤ c.d then ⟨c.y, c.m, c.d - 1⟩
  else if 2 ≤ c.m then ⟨c.y, c.m - 1, daysInMonth c.y (c.m - 1)⟩
  else ⟨c.y - 1, 12, 31⟩

/-- Days since 2024-01-01 of a calendar date, by the standard
era-decomposition closed form for the proleptic Gregorian calendar
(shifted so that 2024-01-01 maps to 0). -/
def toEpochDays (c : Civil) : Int :=
  let y2 : Int := if c.m ≤ 2 then c.y - 1 else c.y
  let era : Int := y2 / 400
  let yoe : Int := y2 - era * 400
  let mp : Int := if 2 < c.m then (c.m : Int) - 3 else (c.m : Int) + 9
  let doy : Int := (153 * mp + 2) / 5 + (c.d : Int) - 1
  let doe : Int := yoe * 365 + yoe / 4 - yoe / 100 + doy
  era * 146097 + doe - 719468 - 19723

/-- The base of the day count. -/
def civilBase : Civil := ⟨2024, 1, 1⟩

/-- Calendar date of a day count, walking day by day from the base. -/
def fromEpochDays (e : Int) : Civil :=
  if 0 ≤ e then succDay^[e.toNat] civilBase
  else predDay^[(-e).toNat] civilBase

/-- The first day of the month after the given date's month. -/
def nextMonthStart (c : Civil) : Civil :=
  if c.m < 12 then ⟨c.y, c.m + 1, 1⟩ else ⟨c.y + 1, 1, 1⟩

/-! ## Bucket granularity functions (get_bucket_functions)

The day count is anchored at 2024-01-01, a Monday, so the Python
weekday (Monday = 0) of a datetime is its day count modulo 7. -/

/-- Python `isocalendar()` year and week of a day count: the ISO year
and week are those of the Thursday of the date's Monday-based week. -/
def isoCal (e : Int) : Int × Int :=
  let th := e - e % 7 + 3
  let yy := (fromEpochDays th).y
  (yy, (th - toEpochDays ⟨yy, 1, 1⟩) / 7 + 1)

/-- `same_bucket` of get_bucket_functions: equality of the two dates at
the selected granularity (ISO week for weekly, year for yearly,
year+month for monthly, calendar day otherwise). -/
def same_bucket (size : String) (a b : DateTime) : Bool :=
  if size = "weekly" then
    isoCal a.days == isoCal b.days
  else if size = "yearly" then
    (fromEpochDays a.days).y == (fromEpochDays b.days).y
  else if size = "monthly" then
    (fromEpochDays a.days).y == (fromEpochDays b.days).y &&
      (fromEpochDays a.days).m == (fromEpochDays b.days).m
  else
    (fromEpochDays a.days).y == (fromEpochDays b.days).y &&
      (fromEpochDays a.days).m == (fromEpochDays b.days).m &&
      (fromEpochDays a.days).d == (fromEpochDays b.days).d

/-- `start_of_bucket` of get_bucket_functions: normalize down to the
granularity boundary at midnight (weekly: most recent Monday). -/
def start_of_bucket (size : String) (t : DateTime) : DateTime :=
  if size = "weekly" then ⟨t.days - t.days % 7, 0⟩
  else if size = "yearly" then
    ⟨toEpochDays ⟨(fromEpochDays t.days).y, 1, 1⟩, 0⟩
  else if size = "monthly" then
    ⟨toEpochDays ⟨(fromEpochDays t.days).y, (fromEpochDays t.days).m, 1⟩, 0⟩
  else ⟨t.days, 0⟩

/-- `next_bucket` of get_bucket_functions: the next granularity boundary
strictly after the date's day (weekly: one day forward, then on to the
next-or-same Monday), at midnight. -/
def next_bucket (size : String) (t : DateTime) : DateTime :=
  if size = "weekly" then ⟨t.days + 1 + (-(t.days + 1)) % 7, 0⟩
  else if size = "yearly" then
    ⟨toEpochDays ⟨(fromEpochDays t.days).y + 1, 1, 1⟩, 0⟩
  else if size = "monthly" then
    ⟨toEpochDays (nextMonthStart (fromEpochDays t.days)), 0⟩
  else ⟨t.days + 1, 0⟩

/-! ## divide_time_range -/

/-- A pricing period of the PRICING_PERIODS configuration (the period
dates are parsed to datetimes at startup; divide_time_range reads only
period_end and the three prices). -/
structure Period where
  period_start : DateTime
  period_end : DateTime
  cpu_price : Rat
  volume_price : Rat
  image_price : Rat
  deriving DecidableEq, Repr

/-- One entry of date_ranges. The source stores the two dates as
isoformat strings and parses them back later; that round trip is the
identity on the underlying datetime, so the dates are modelled
directly. -/
structure Bucket where
  start_date : DateTime
  end_date : DateTime
  cpu_price : Rat
  volume_price : Rat
  image_price : Rat
  deriving DecidableEq, Repr

/-- The initial pricing-cursor loop of divide_time_range:
while start_date >= period.period_end and next_period is not None,
fetch the next period from the iterator (whose not-yet-fetched suffix
is the list argument), updating `period` only when the fetch
succeeded. -/
def advanceFull (s : DateTime) : Period → Option Period → List Period →
    Period × Option Period × List Period
  | period, nextP, [] =>
    if dtLe period.period_end s ∧ nextP ≠ none then (period, none, [])
    else (period, nextP, [])
  | period, nextP, q :: rest2 =>
    if dtLe period.period_end s ∧ nextP ≠ none then
      advanceFull s q (some q) rest2
    else (period, nextP, q :: rest2)

/-- One conditional pricing-cursor advance, as performed at the top of
each bucket-walk iteration. -/
def advanceOnce (s : DateTime) (period : Period) (nextP : Option Period)
    (rest : List Period) : Period × Option Period × List Period :=
  if dtLe period.period_end s ∧ nextP ≠ none then
    match rest with
    | [] => (period, none, [])
    | q :: rest2 => (q, some q, rest2)
  else (period, nextP, rest)

/-- The bucket end date computed by one iteration of the walk:
min(next_bucket(start), current period's end, overall end), with the
period end omitted from the min when the cursor start has already
passed it. -/
def stepPe (e : DateTime) (size : String) (s : DateTime)
    (period : Period) : DateTime :=
  if dtLt s period.period_end then
    dtMin (dtMin (next_bucket size s) period.period_end) e
  else dtMin (next_bucket size s) e

/-- The bucket emitted by one iteration of the walk. -/
def stepBucket (e : DateTime) (size : String) (s : DateTime)
    (period : Period) : Bucket :=
  ⟨s, stepPe e size s period, period.cpu_price, period.volume_price,
    period.image_price⟩

/-- The bucket-emission loop of divide_time_range (fuelled; the fuel
passed by divide_time_range is proven sufficient below). State: the
cursor start_date, the pricing cursor, the accumulated date_ranges and
the remaining query_periods budget. -/
def walk (e : DateTime) (size : String) :
    Nat → DateTime → Period → Option Period → List Period →
      List Bucket → Nat → Option (List Bucket)
  | 0, _, _, _, _, _, _ => none
  | fuel + 1, s, period, nextP, rest, dr, qp =>
    if s = e then some dr
    else
      let st2 := advanceOnce s period nextP rest
      let pe := stepPe e size s st2.1
      let dr2 := dr ++ [stepBucket e size s st2.1]
      let dq : List Bucket × Nat :=
        if 0 < qp then (dr2, qp - 1) else (dr2.drop 1, qp)
      walk e size fuel pe st2.1 st2.2.1 st2.2.2 dq.1 dq.2

/-- The same walk, collecting every bucket it visits with no output
cap: the ghost trace used to state the windowing behaviour. -/
def walkAll (e : DateTime) (size : String) :
    Nat → DateTime → Period → Option Period → List Period →
      Option (List Bucket)
  | 0, _, _, _, _ => none
  | fuel + 1, s, period, nextP, rest =>
    if s = e then some []
    else
      let st2 := advanceOnce s period nextP rest
      let pe := stepPe e size s st2.1
      (walkAll e size fuel pe st2.1 st2.2.1 st2.2.2).map
        (fun tl => stepBucket e size s st2.1 :: tl)

/-- Termination measure of the walk: datetimes strictly between the
cursor and the range end, counted coarsely. -/
def walkMeasure (e s : DateTime) : Nat :=
  (e.days - s.days).toNat * microsPerDay + (microsPerDay - s.tod)

/-- Fuel sufficient for the walk (proven below). -/
def fuelFor (s e : DateTime) : Nat :=
  (e.days - s.days).toNat * microsPerDay + 2 * microsPerDay + 4

/-- Resolution of the requested bucket-size name: anything outside
VALID_BUCKET_SIZES (including an absent parameter) silently becomes
daily. -/
def resolveSize (validSizes : List String) (bs : Option String) : String :=
  match bs with
  | none => "daily"
  | some b => if b ∈ validSizes then b else "daily"

/-- divide_time_range(start_date, end_date, bucket_size): the list of
emitted date_ranges (capped at 62) and the resolved bucket size.
Returns none exactly where the Python function raises: an empty
pricing-period table (subscripting None). -/
def divide_time_range (validSizes : List String) (ps : List Period)
    (s e : DateTime) (bs : Option String) : Option (List Bucket × String) :=
  let size := resolveSize validSizes bs
  match ps with
  | [] => none
  | p :: rest =>
    let st := advanceFull s p (some p) rest
    (walk e size (fuelFor s e) s st.1 st.2.1 st.2.2 [] 62).map
      (fun dr => (dr, size))

/-- The full (uncapped) bucket trace of the walk divide_time_range
performs, from the same initial state. -/
def walkTrace (validSizes : List String) (ps : List Period)
    (s e : DateTime) (bs : Option String) : Option (List Bucket) :=
  let size := resolveSize validSizes bs
  match ps with
  | [] => none
  | p :: rest =>
    let st := advanceFull s p (some p) rest
    walkAll e size (fuelFor s e) s st.1 st.2.1 st.2.2

/-- The configured VALID_BUCKET_SIZES used in concrete runs. -/
def allSizes : List String := ["daily", "weekly", "monthly", "yearly"]

/-- A single pricing period covering the sample ranges. -/
def samplePeriod : Period := ⟨⟨-100, 0⟩, ⟨100000, 0⟩, 1, 2, 3⟩

/-- The bucket list divide_time_range returns covers [s, e]
contiguously: each bucket starts where instructed and ends where the
next one starts, and the walk finishes exactly at e. -/
def chainFromTo (s e : DateTime) : List Bucket → Prop
  | [] => s = e
  | b :: tl => b.start_date = s ∧ chainFromTo b.end_date e tl

/-- The pricing period active at an instant: the first period of the
ordered list whose end is strictly after the instant. -/
def activePeriod (ps : List Period) (t : DateTime) : Option Period :=
  ps.find? (fun p => decide (dtLt t p.period_end))

/-- Reachable states of the forward-only pricing cursor relative to
the full period list and the current walk cursor `s`: either the
cursor sits on a period not yet exhausted (everything before it
already ended at or before `s`, and `s` has not passed its end), or
the iterator is exhausted and the cursor is stuck on the last period,
every period having ended at or before `s`. -/
def cursorInv (ps : List Period) (s : DateTime) (per : Period)
    (np : Option Period) (rest : List Period) : Prop :=
  (∃ pre, ps = pre ++ per :: rest ∧ np = some per ∧
      dtLe s per.period_end ∧ ∀ p ∈ pre, dtLe p.period_end s) ∨
  (np = none ∧ rest = [] ∧ ps.getLast? = some per ∧
      ∀ p ∈ ps, dtLe p.period_end s)

/-! ## The report aggregator (sort_results_into_buckets) -/

/-- Truncation of a rational toward zero: the value of Python
int(Decimal(...)). -/
def ratTrunc (q : Rat) : Int :=
  if 0 ≤ q.num then q.num / (q.den : Int) else -(-q.num / (q.den : Int))

/-- parse_decimal: a Decimal quantity is truncated to int, an absent
(None) quantity becomes 0. The aggregator only ever applies it to SQL
aggregate values, which are Decimal or None, so the identity fallback
branch of the source is never taken here. -/
def parse_decimal (o : Option Rat) : Rat :=
  match o with
  | none => 0
  | some q => ((ratTrunc q : Int) : Rat)

/-- round(x, 4) of the source, on exact rationals: half rounds away
from zero, matching the observed float behaviour at the quantities and
rates the report pipeline produces. -/
def pyround4 (x : Rat) : Rat :=
  (if 0 ≤ x then ((⌊x * 10000 + 1 / 2⌋ : Int) : Rat)
   else -((⌊-x * 10000 + 1 / 2⌋ : Int) : Rat)) / 10000

/-- One row appended to `responses` by generate_report_data: a cpu or
volume record (user from the database, one quantity, its price) or an
image record (user set to None, image quantity and price). A none
quantity or price stands for an absent or null dict key. -/
structure UsageItem where
  user : Option String
  projectId : String
  username : Option String
  fromDate : DateTime
  toDate : DateTime
  cpu : Option Rat
  volume : Option Rat
  image : Option Rat
  cpuPrice : Option Rat
  volumePrice : Option Rat
  imagePrice : Option Rat
  deriving DecidableEq, Repr

/-- One aggregated entry of the report list built by
sort_results_into_buckets. A none field is an absent dict key. -/
structure ReportItem where
  fromDate : DateTime
  toDate : DateTime
  user : Option String
  projectId : String
  username : Option String
  cpu : Option Rat
  cpuCost : Option Rat
  volume : Option Rat
  volumeCost : Option Rat
  image : Option Rat
  imageCost : Option Rat
  deriving DecidableEq, Repr

/-- The match test of the aggregator scan: same user, same project,
and the two fromDates fall in the same bucket. -/
def matchesItem (size : String) (ri : ReportItem) (it : UsageItem) : Bool :=
  ri.user == it.user && ri.projectId == it.projectId &&
    same_bucket size ri.fromDate it.fromDate

/-- Merging one usage item into the matching report entry. Returns
none exactly where the source raises (a missing price key, or image
arithmetic on an absent or null value). -/
def mergeItem (it : UsageItem) (ri : ReportItem) : Option ReportItem :=
  match ri.user with
  | some _ =>
    let step1 : Option ReportItem :=
      match it.cpu with
      | none => some ri
      | some q =>
        match it.cpuPrice with
        | none => none
        | some p =>
          some
            { ri with
              cpu := some (ri.cpu.getD 0 + q),
              cpuCost := some (ri.cpuCost.getD 0 +
                pyround4 (parse_decimal (some q) * p)) }
    match step1 with
    | none => none
    | some ri1 =>
      match it.volume with
      | none => some ri1
      | some q =>
        match it.volumePrice with
        | none => none
        | some p =>
          some
            { ri1 with
              volume := some (ri1.volume.getD 0 + q),
              volumeCost := some (ri1.volumeCost.getD 0 +
                pyround4 (parse_decimal (some q) * p)) }
  | none =>
    match ri.image, ri.imageCost, it.image, it.imagePrice with
    | some a, some c, some b, some p =>
      some
        { ri with
          image := some (a + b),
          imageCost := some (c + pyround4 (parse_decimal (some b) * p)) }
    | _, _, _, _ => none

/-- Creating a new report entry from an unmatched usage item: the
window is re-anchored to the bucket containing the item's fromDate.
Returns none exactly where the source raises (a missing price key). -/
def createItem (size : String) (it : UsageItem) : Option ReportItem :=
  let base : ReportItem :=
    { fromDate := start_of_bucket size it.fromDate,
      toDate := next_bucket size it.fromDate,
      user := it.user, projectId := it.projectId, username := none,
      cpu := none, cpuCost := none, volume := none, volumeCost := none,
      image := none, imageCost := none }
  match it.user with
  | some _ =>
    let base1 : ReportItem := { base with username := it.username }
    let step1 : Option ReportItem :=
      match it.cpu with
      | none => some base1
      | some q =>
        match it.cpuPrice with
        | none => none
        | some p =>
          some
            { base1 with
              cpu := some (parse_decimal (some q)),
              cpuCost := some (pyround4 (parse_decimal (some q) * p)) }
    match step1 with
    | none => none
    | some ri1 =>
      match it.volume with
      | none => some ri1
      | some q =>
        match it.volumePrice with
        | none => none
        | some p =>
          some
            { ri1 with
              volume := some (parse_decimal (some q)),
              volumeCost := some (pyround4 (parse_decimal (some q) * p)) }
  | none =>
    match it.imagePrice with
    | none => none
    | some p =>
      some
        { base with
          image := it.image,
          imageCost := some (pyround4 (parse_decimal it.image * p)) }

/-- One reduce step of sort_results_into_buckets: scan the report for
the first matching entry and merge into it in place; if none matches,
append a freshly created entry at the end. -/
def sort_results_into_buckets (size : String) :
    List ReportItem → UsageItem → Option (List ReportItem)
  | [], it => (createItem size it).map (fun ni => [ni])
  | ri :: rest, it =>
    if matchesItem size ri it then
      (mergeItem it ri).map (fun ri2 => ri2 :: rest)
    else
      (sort_results_into_buckets size rest it).map (fun r2 => ri :: r2)

/-- The left fold of the reduce, from an arbitrary accumulator. -/
def sortFold (size : String) : List ReportItem → List UsageItem →
    Option (List ReportItem)
  | r, [] => some r
  | r, it :: rest =>
    match sort_results_into_buckets size r it with
    | none => none
    | some r2 => sortFold size r2 rest

/-- reduce(sort_results_into_buckets, responses, list()). -/
def report_reduce (size : String) (items : List UsageItem) :
    Option (List ReportItem) :=
  sortFold size [] items

/-! ## Scope resolution of generate_report_data -/

/-- The role-partition loop: projects where the caller holds the
billing role, and the remaining projects the caller has any role in,
in input order. The role map is the association list
database.get_user_roles returns. -/
def partitionProjects (roleMap : List (String × List String))
    (projectList : List String) : List String × List String :=
  projectList.foldl
    (fun acc project =>
      match roleMap.lookup project with
      | none => acc
      | some roles =>
        if "billing" ∈ roles then (acc.1 ++ [project], acc.2)
        else (acc.1, acc.2 ++ [project]))
    ([], [])

/-- The viewing-user branch of generate_report_data, returning the
final (billing_projects, user_projects, user) triple. -/
def resolveScope (userArg : Option String) (userId : String)
    (billingProjects userProjects : List String) :
    List String × List String × String :=
  match userArg with
  | some u =>
    if u = userId then ([""], userProjects ++ billingProjects, u)
    else ([""], billingProjects, u)
  | none => (billingProjects, userProjects, userId)

/-- The same branch as the specification words it, with
billing_projects cleared to the empty list; stated only to be compared
with resolveScope. -/
def resolveScopeSpec (userArg : Option String) (userId : String)
    (billingProjects userProjects : List String) :
    List String × List String × String :=
  match userArg with
  | some u =>
    if u = userId then ([], userProjects ++ billingProjects, u)
    else ([], billingProjects, u)
  | none => (billingProjects, userProjects, userId)

/-! ## Concrete data for the aggregator runs -/

/-- A cpu usage record of quantity 1 at rate 0.12345. -/
def c4Item : UsageItem :=
  { user := some "alice", projectId := "proj", username := some "alice",
    fromDate := ⟨0, 0⟩, toDate := ⟨1, 0⟩, cpu := some 1, volume := none,
    image := none, cpuPrice := some (mkRat 12345 100000),
    volumePrice := none, imagePrice := none }

/-- The entry created from c4Item. -/
def c4Entry1 : ReportItem :=
  { fromDate := ⟨0, 0⟩, toDate := ⟨1, 0⟩, user := some "alice",
    projectId := "proj", username := some "alice", cpu := some 1,
    cpuCost := some (mkRat 1235 10000), volume := none,
    volumeCost := none, image := none, imageCost := none }

/-- c4Entry1 after one further merge of c4Item. -/
def c4Entry2 : ReportItem :=
  { c4Entry1 with cpu := some 2, cpuCost := some (mkRat 2470 10000) }

/-- A user record with no quantities. -/
def c8Item : UsageItem :=
  { user := some "carol", projectId := "proj8", username := some "carol",
    fromDate := ⟨0, 0⟩, toDate := ⟨1, 0⟩, cpu := none, volume := none,
    image := none, cpuPrice := none, volumePrice := none,
    imagePrice := none }

/-- The entry created from c8Item. -/
def c8Entry : ReportItem :=
  { fromDate := ⟨0, 0⟩, toDate := ⟨1, 0⟩, user := some "carol",
    projectId := "proj8", username := some "carol", cpu := none,
    cpuCost := none, volume := none, volumeCost := none, image := none,
    imageCost := none }

/-- A cpu record of fractional quantity 2.7 at rate 2. -/
def c9Item : UsageItem :=
  { user := some "bob", projectId := "p9", username := some "bob",
    fromDate := ⟨0, 0⟩, toDate := ⟨1, 0⟩, cpu := some (mkRat 27 10),
    volume := none, image := none, cpuPrice := some 2,
    volumePrice := none, imagePrice := none }

/-- An existing entry c9Item can merge into. -/
def c9Entry : ReportItem :=
  { fromDate := ⟨0, 0⟩, toDate := ⟨1, 0⟩, user := some "bob",
    projectId := "p9", username := some "bob", cpu := some 5,
    cpuCost := some 10, volume := none, volumeCost := none,
    image := none, imageCost := none }

/-- c9Entry after merging c9Item: raw quantity added, cost computed
from the truncated quantity. -/
def c9Entry2 : ReportItem :=
  { c9Entry with cpu := some (mkRat 77 10), cpuCost := some 14 }

/-- The entry created from c9Item alone. -/
def c9Entry3 : ReportItem :=
  { fromDate := ⟨0, 0⟩, toDate := ⟨1, 0⟩, user := some "bob",
    projectId := "p9", username := some "bob", cpu := some 2,
    cpuCost := some 4, volume := none, volumeCost := none,
    image := none, imageCost := none }

/-- A user record with no quantities, mid-week with a nonzero time of
day. -/
def c7Item : UsageItem :=
  { user := some "dana", projectId := "p7", username := some "dana",
    fromDate := ⟨16, 123⟩, toDate := ⟨17, 500⟩, cpu := none,
    volume := none, image := none, cpuPrice := none,
    volumePrice := none, imagePrice := none }

/-- The entry created from c7Item at weekly granularity. -/
def c7Entry : ReportItem :=
  { fromDate := ⟨14, 0⟩, toDate := ⟨21, 0⟩, user := some "dana",
    projectId := "p7", username := some "dana", cpu := none,
    cpuCost := none, volume := none, volumeCost := none, image := none,
    imageCost := none }

/-! ## Theorems -/

theorem dtLt_irrefl (a : DateTime) : ¬ dtLt a a := by
  simp [dtLt]

theorem dtLt_trans {a b c : DateTime} (h1 : dtLt a b) (h2 : dtLt b c) :
    dtLt a c := by
  rcases h1 with h1 | ⟨e1, l1⟩ <;> rcases h2 with h2 | ⟨e2, l2⟩ <;>
    simp only [dtLt] <;> omega

theorem dtLt_asymm {a b : DateTime} (h : dtLt a b) : ¬ dtLt b a := by
  intro h2
  exact dtLt_irrefl a (dtLt_trans h h2)

theorem dtLe_refl (a : DateTime) : dtLe a a := Or.inr rfl

theorem dtLe_of_lt {a b : DateTime} (h : dtLt a b) : dtLe a b := Or.inl h

theorem dtLt_of_le_of_lt {a b c : DateTime} (h1 : dtLe a b) (h2 : dtLt b c) :
    dtLt a c := by
  rcases h1 with h1 | rfl
  · exact dtLt_trans h1 h2
  · exact h2

theorem dtLt_of_lt_of_le {a b c : DateTime} (h1 : dtLt a b) (h2 : dtLe b c) :
    dtLt a c := by
  rcases h2 with h2 | rfl
  · exact dtLt_trans h1 h2
  · exact h1

theorem dtLe_trans {a b c : DateTime} (h1 : dtLe a b) (h2 : dtLe b c) :
    dtLe a c := by
  rcases h1 with h1 | rfl
  · exact dtLe_of_lt (dtLt_of_lt_of_le h1 h2)
  · exact h2

theorem dtLt_trichotomy (a b : DateTime) : dtLt a b ∨ a = b ∨ dtLt b a := by
  by_cases h1 : a.days < b.days
  · exact Or.inl (Or.inl h1)
  · by_cases h2 : b.days < a.days
    · exact Or.inr (Or.inr (Or.inl h2))
    · have hd : a.days = b.days := by omega
      by_cases h3 : a.tod < b.tod
      · exact Or.inl (Or.inr ⟨hd, h3⟩)
      · by_cases h4 : b.tod < a.tod
        · exact Or.inr (Or.inr (Or.inr ⟨hd.symm, h4⟩))
        · have ht : a.tod = b.tod := by omega
          exact Or.inr (Or.inl (by cases a; cases b; simp_all))

theorem not_dtLt_iff {a b : DateTime} : ¬ dtLt a b ↔ dtLe b a := by
  constructor
  · intro h
    rcases dtLt_trichotomy a b with h1 | rfl | h1
    · exact absurd h1 h
    · exact dtLe_refl _
    · exact dtLe_of_lt h1
  · intro h h2
    rcases h with h | rfl
    · exact dtLt_asymm h h2
    · exact dtLt_irrefl _ h2

theorem dtMin_le_left (a b : DateTime) : dtLe (dtMin a b) a := by
  unfold dtMin
  split
  · exact dtLe_of_lt (by assumption)
  · exact dtLe_refl a

theorem dtMin_le_right (a b : DateTime) : dtLe (dtMin a b) b := by
  unfold dtMin
  split
  · exact dtLe_refl b
  · exact not_dtLt_iff.mp (by assumption)

theorem dtLt_dtMin {s a b : DateTime} (h1 : dtLt s a) (h2 : dtLt s b) :
    dtLt s (dtMin a b) := by
  unfold dtMin
  split <;> assumption

theorem dtMin_eq_right {a b : DateTime} (h : dtLt b a) : dtMin a b = b := by
  unfold dtMin
  simp [h]

theorem daysInMonth_pos (y : Int) (m : Nat) : 1 ≤ daysInMonth y m := by
  unfold daysInMonth
  split
  · split <;> omega
  · split <;> omega

theorem civil_valid_mk {y : Int} {m d : Nat} (h1 : 1 ≤ m) (h2 : m ≤ 12)
    (h3 : 1 ≤ d) (h4 : d ≤ daysInMonth y m) : (Civil.mk y m d).Valid :=
  ⟨h1, h2, h3, h4⟩

theorem civil_valid_first {y : Int} {m : Nat} (h1 : 1 ≤ m) (h2 : m ≤ 12) :
    (Civil.mk y m 1).Valid :=
  civil_valid_mk h1 h2 (le_refl _) (daysInMonth_pos _ _)

theorem isLeap_iff (y : Int) :
    isLeap y = true ↔ (y % 4 = 0 ∧ y % 100 ≠ 0) ∨ y % 400 = 0 := by
  simp [isLeap, Bool.or_eq_true, Bool.and_eq_true, beq_iff_eq, bne_iff_ne]

theorem daysInMonth_eq (y : Int) (m : Nat) :
    daysInMonth y m =
      if m = 2 then
        (if (y % 4 = 0 ∧ y % 100 ≠ 0) ∨ y % 400 = 0 then 29 else 28)
      else if m = 4 ∨ m = 6 ∨ m = 9 ∨ m = 11 then 30 else 31 := by
  have hPiff := isLeap_iff y
  unfold daysInMonth
  split_ifs with h1 h2 h3 <;>
    first
      | rfl
      | exact absurd (hPiff.mp (by assumption)) (by assumption)
      | exact absurd (hPiff.mpr (by assumption)) (by assumption)

example : toEpochDays civilBase = 0 := by decide
example : toEpochDays ⟨2024, 3, 1⟩ = 60 := by decide
example : toEpochDays ⟨2023, 12, 31⟩ = -1 := by decide
example : toEpochDays ⟨1970, 1, 1⟩ = -19723 := by decide
example : fromEpochDays 2 = ⟨2024, 1, 3⟩ := by decide
example : fromEpochDays (-1) = ⟨2023, 12, 31⟩ := by decide

/-- The closed-form day count advances by exactly one across a calendar
day step. -/
theorem toEpochDays_succDay (c : Civil) (h : c.Valid) :
    toEpochDays (succDay c) = toEpochDays c + 1 := by
  obtain ⟨y, m, d⟩ := c
  have hm1 : 1 ≤ m := h.1
  have hm2 : m ≤ 12 := h.2.1
  have hd1 : 1 ≤ d := h.2.2.1
  have hd2 : d ≤ daysInMonth y m := h.2.2.2
  clear h
  by_cases hlt : d < daysInMonth y m
  · have hs : succDay ⟨y, m, d⟩ = ⟨y, m, d + 1⟩ := by simp [succDay, hlt]
    rw [hs]
    clear hlt hd1 hd2
    simp only [toEpochDays]
    split_ifs <;> omega
  · have hdm : d = daysInMonth y m := by omega
    by_cases hm12 : m < 12
    · have hs : succDay ⟨y, m, d⟩ = ⟨y, m + 1, 1⟩ := by
        simp [succDay, hlt, hm12]
      rw [hs]
      clear hlt hd1 hd2
      have hmv : m = 1 ∨ m = 2 ∨ m = 3 ∨ m = 4 ∨ m = 5 ∨ m = 6 ∨ m = 7 ∨
          m = 8 ∨ m = 9 ∨ m = 10 ∨ m = 11 := by omega
      rcases hmv with rfl | rfl | rfl | rfl | rfl | rfl | rfl | rfl | rfl |
        rfl | rfl <;>
        first
          | (simp [daysInMonth] at hdm
             subst hdm
             simp only [toEpochDays]
             split_ifs <;> omega)
          | (rw [daysInMonth_eq] at hdm
             simp at hdm
             split_ifs at hdm <;>
               (subst hdm
                simp only [toEpochDays]
                split_ifs <;> omega))
    · have hm' : m = 12 := by omega
      subst hm'
      have hd' : d = 31 := by simp [daysInMonth] at hdm; omega
      subst hd'
      have hs : succDay ⟨y, 12, 31⟩ = ⟨y + 1, 1, 1⟩ := by
        simp [succDay, daysInMonth]
      rw [hs]
      simp only [toEpochDays]
      split_ifs <;> omega

theorem succDay_valid (c : Civil) (h : c.Valid) : (succDay c).Valid := by
  obtain ⟨y, m, d⟩ := c
  have hm1 : 1 ≤ m := h.1
  have hm2 : m ≤ 12 := h.2.1
  have hd1 : 1 ≤ d := h.2.2.1
  have hd2 : d ≤ daysInMonth y m := h.2.2.2
  simp only [succDay]
  split_ifs with h1 h2
  · have hgoal : 1 ≤ m ∧ m ≤ 12 ∧ 1 ≤ d + 1 ∧ d + 1 ≤ daysInMonth y m :=
      ⟨hm1, hm2, by omega, by omega⟩
    exact hgoal
  · have hgoal : 1 ≤ m + 1 ∧ m + 1 ≤ 12 ∧ 1 ≤ 1 ∧ 1 ≤ daysInMonth y (m + 1) :=
      ⟨by omega, by omega, le_refl 1, daysInMonth_pos _ _⟩
    exact hgoal
  · have hgoal : 1 ≤ 1 ∧ 1 ≤ 12 ∧ 1 ≤ 1 ∧ 1 ≤ daysInMonth (y + 1) 1 :=
      ⟨le_refl 1, by omega, le_refl 1, daysInMonth_pos _ _⟩
    exact hgoal

theorem predDay_valid (c : Civil) (h : c.Valid) : (predDay c).Valid := by
  obtain ⟨y, m, d⟩ := c
  have hm1 : 1 ≤ m := h.1
  have hm2 : m ≤ 12 := h.2.1
  have hd1 : 1 ≤ d := h.2.2.1
  have hd2 : d ≤ daysInMonth y m := h.2.2.2
  simp only [predDay]
  split_ifs with h1 h2
  · have hgoal : 1 ≤ m ∧ m ≤ 12 ∧ 1 ≤ d - 1 ∧ d - 1 ≤ daysInMonth y m :=
      ⟨hm1, hm2, by omega, by omega⟩
    exact hgoal
  · have hgoal : 1 ≤ m - 1 ∧ m - 1 ≤ 12 ∧ 1 ≤ daysInMonth y (m - 1) ∧
        daysInMonth y (m - 1) ≤ daysInMonth y (m - 1) :=
      ⟨by omega, by omega, daysInMonth_pos _ _, le_refl _⟩
    exact hgoal
  · have hgoal : 1 ≤ 12 ∧ 12 ≤ 12 ∧ 1 ≤ 31 ∧ 31 ≤ daysInMonth (y - 1) 12 :=
      ⟨by omega, le_refl _, by omega, by simp [daysInMonth]⟩
    exact hgoal

theorem succDay_predDay (c : Civil) (h : c.Valid) :
    succDay (predDay c) = c := by
  obtain ⟨y, m, d⟩ := c
  have hm1 : 1 ≤ m := h.1
  have hm2 : m ≤ 12 := h.2.1
  have hd1 : 1 ≤ d := h.2.2.1
  have hd2 : d ≤ daysInMonth y m := h.2.2.2
  by_cases h1 : 2 ≤ d
  · have hp : predDay ⟨y, m, d⟩ = ⟨y, m, d - 1⟩ := by simp [predDay, h1]
    have hc : d - 1 < daysInMonth y m := by omega
    have hd' : d - 1 + 1 = d := by omega
    rw [hp]
    simp [succDay, hc, hd']
  · have hd' : d = 1 := by omega
    subst hd'
    by_cases h2 : 2 ≤ m
    · have hp : predDay ⟨y, m, 1⟩ = ⟨y, m - 1, daysInMonth y (m - 1)⟩ := by
        simp [predDay, h2]
      have hc1 : ¬ (daysInMonth y (m - 1) < daysInMonth y (m - 1)) := by omega
      have hc2 : m - 1 < 12 := by omega
      have hm' : m - 1 + 1 = m := by omega
      rw [hp]
      simp [succDay, hc1, hc2, hm']
    · have hm' : m = 1 := by omega
      subst hm'
      have hp : predDay ⟨y, 1, 1⟩ = ⟨y - 1, 12, 31⟩ := by simp [predDay]
      rw [hp]
      simp [succDay, daysInMonth]

theorem toEpochDays_predDay (c : Civil) (h : c.Valid) :
    toEpochDays (predDay c) = toEpochDays c - 1 := by
  have h2 := toEpochDays_succDay (predDay c) (predDay_valid c h)
  rw [succDay_predDay c h] at h2
  omega

theorem succDay_iter_base (n : Nat) :
    (succDay^[n] civilBase).Valid ∧
      toEpochDays (succDay^[n] civilBase) = (n : Int) := by
  induction n with
  | zero => exact ⟨by decide, by decide⟩
  | succ k ih =>
    rw [Function.iterate_succ_apply']
    refine ⟨succDay_valid _ ih.1, ?_⟩
    rw [toEpochDays_succDay _ ih.1, ih.2]
    omega

theorem predDay_iter_base (n : Nat) :
    (predDay^[n] civilBase).Valid ∧
      toEpochDays (predDay^[n] civilBase) = -(n : Int) := by
  induction n with
  | zero => exact ⟨by decide, by decide⟩
  | succ k ih =>
    rw [Function.iterate_succ_apply']
    refine ⟨predDay_valid _ ih.1, ?_⟩
    rw [toEpochDays_predDay _ ih.1, ih.2]
    omega

/-- Every day count denotes an existing calendar date. -/
theorem fromEpochDays_valid (e : Int) : (fromEpochDays e).Valid := by
  unfold fromEpochDays
  split
  · exact (succDay_iter_base _).1
  · exact (predDay_iter_base _).1

/-- Round trip: the closed-form day count inverts the day-walk
conversion. -/
theorem toEpochDays_fromEpochDays (e : Int) :
    toEpochDays (fromEpochDays e) = e := by
  unfold fromEpochDays
  split
  · rw [(succDay_iter_base _).2]
    omega
  · rw [(predDay_iter_base _).2]
    omega

theorem toEpochDays_day_affine (y : Int) (m d d2 : Nat) :
    toEpochDays ⟨y, m, d⟩ + (d2 : Int) = toEpochDays ⟨y, m, d2⟩ + (d : Int) := by
  simp only [toEpochDays]
  split_ifs <;> omega

theorem toEpochDays_lt_nextMonthStart (c : Civil) (h : c.Valid) :
    toEpochDays c < toEpochDays (nextMonthStart c) := by
  obtain ⟨y, m, d⟩ := c
  have hm1 : 1 ≤ m := h.1
  have hm2 : m ≤ 12 := h.2.1
  have hd2 : d ≤ daysInMonth y m := h.2.2.2
  have hvend : (Civil.mk y m (daysInMonth y m)).Valid :=
    ⟨hm1, hm2, daysInMonth_pos _ _, le_refl _⟩
  have hstep := toEpochDays_succDay _ hvend
  have hsucc : succDay ⟨y, m, daysInMonth y m⟩ = nextMonthStart ⟨y, m, d⟩ := by
    simp only [succDay, nextMonthStart]
    split_ifs <;> first | rfl | omega
  rw [hsucc] at hstep
  have haff := toEpochDays_day_affine y m d (daysInMonth y m)
  omega

theorem monthStart_mono (y : Int) (k : Nat) :
    ∀ m : Nat, 1 ≤ m → m + k ≤ 12 →
      toEpochDays ⟨y, m, 1⟩ ≤ toEpochDays ⟨y, m + k, 1⟩ := by
  induction k with
  | zero => intro m _ _; exact le_refl _
  | succ j ih =>
    intro m hm1 hmk
    have h1 : toEpochDays ⟨y, m, 1⟩ ≤ toEpochDays ⟨y, m + j, 1⟩ :=
      ih m hm1 (by omega)
    have hv : (Civil.mk y (m + j) 1).Valid :=
      civil_valid_first (by omega) (by omega)
    have h2 := toEpochDays_lt_nextMonthStart _ hv
    have hc : m + j < 12 := by omega
    have hns : nextMonthStart ⟨y, m + j, 1⟩ = ⟨y, m + j + 1, 1⟩ := by
      simp [nextMonthStart, hc]
    rw [hns] at h2
    have : m + (j + 1) = m + j + 1 := by omega
    rw [this]
    omega

theorem toEpochDays_lt_nextYearStart (c : Civil) (h : c.Valid) :
    toEpochDays c < toEpochDays ⟨c.y + 1, 1, 1⟩ := by
  obtain ⟨y, m, d⟩ := c
  show toEpochDays ⟨y, m, d⟩ < toEpochDays ⟨y + 1, 1, 1⟩
  have hm1 : 1 ≤ m := h.1
  have hm2 : m ≤ 12 := h.2.1
  have hd2 : d ≤ daysInMonth y m := h.2.2.2
  have haff := toEpochDays_day_affine y m d 1
  have h1 : toEpochDays ⟨y, m, 1⟩ ≤ toEpochDays ⟨y, 12, 1⟩ := by
    have := monthStart_mono y (12 - m) m hm1 (by omega)
    have hrw : m + (12 - m) = 12 := by omega
    rw [hrw] at this
    exact this
  have haff2 := toEpochDays_day_affine y 12 1 31
  have hv31 : (Civil.mk y 12 31).Valid :=
    civil_valid_mk (by omega) (le_refl _) (by omega) (by simp [daysInMonth])
  have hstep := toEpochDays_succDay _ hv31
  have hsucc : succDay ⟨y, 12, 31⟩ = ⟨y + 1, 1, 1⟩ := by
    simp [succDay, daysInMonth]
  rw [hsucc] at hstep
  have hdim : daysInMonth y m ≤ 31 := by
    unfold daysInMonth
    split_ifs <;> omega
  omega

theorem yearStart_mono (n : Nat) (y : Int) :
    toEpochDays ⟨y, 1, 1⟩ ≤ toEpochDays ⟨y + (n : Int), 1, 1⟩ := by
  induction n with
  | zero => simp
  | succ j ih =>
    have hv : (Civil.mk (y + (j : Int)) 1 1).Valid :=
      civil_valid_first (le_refl _) (by omega)
    have h2 : toEpochDays ⟨y + (j : Int), 1, 1⟩ <
        toEpochDays ⟨y + (j : Int) + 1, 1, 1⟩ :=
      toEpochDays_lt_nextYearStart _ hv
    push_cast
    rw [show y + ((j : Int) + 1) = y + (j : Int) + 1 from by ring]
    omega

/-- The closed-form day count is strictly monotone on valid calendar
dates, ordered lexicographically. -/
theorem toEpochDays_strictMono {ya yb : Int} {ma mb da db : Nat}
    (ha : (Civil.mk ya ma da).Valid) (hb : (Civil.mk yb mb db).Valid)
    (h : ya < yb ∨ (ya = yb ∧ (ma < mb ∨ (ma = mb ∧ da < db)))) :
    toEpochDays ⟨ya, ma, da⟩ < toEpochDays ⟨yb, mb, db⟩ := by
  have ham1 : 1 ≤ ma := ha.1
  have ham2 : ma ≤ 12 := ha.2.1
  have had1 : 1 ≤ da := ha.2.2.1
  have had2 : da ≤ daysInMonth ya ma := ha.2.2.2
  have hbm1 : 1 ≤ mb := hb.1
  have hbm2 : mb ≤ 12 := hb.2.1
  have hbd1 : 1 ≤ db := hb.2.2.1
  rcases h with hy | ⟨hy, hm | ⟨hm, hd⟩⟩
  · -- strictly later year
    have h1 : toEpochDays ⟨ya, ma, da⟩ < toEpochDays ⟨ya + 1, 1, 1⟩ :=
      toEpochDays_lt_nextYearStart ⟨ya, ma, da⟩ ha
    have h2 : toEpochDays ⟨ya + 1, 1, 1⟩ ≤ toEpochDays ⟨yb, 1, 1⟩ := by
      have := yearStart_mono (yb - (ya + 1)).toNat (ya + 1)
      have hrw : ya + 1 + ((yb - (ya + 1)).toNat : Int) = yb := by omega
      rw [hrw] at this
      exact this
    have h3 : toEpochDays ⟨yb, 1, 1⟩ ≤ toEpochDays ⟨yb, mb, 1⟩ := by
      have := monthStart_mono yb (mb - 1) 1 (le_refl _) (by omega)
      have hrw : 1 + (mb - 1) = mb := by omega
      rw [hrw] at this
      exact this
    have h4 := toEpochDays_day_affine yb mb 1 db
    omega
  · -- same year, strictly later month
    subst hy
    have h1 : toEpochDays ⟨ya, ma, da⟩ < toEpochDays (nextMonthStart ⟨ya, ma, da⟩) :=
      toEpochDays_lt_nextMonthStart _ ha
    have hc : ma < 12 := by omega
    have hns : nextMonthStart ⟨ya, ma, da⟩ = ⟨ya, ma + 1, 1⟩ := by
      simp [nextMonthStart, hc]
    rw [hns] at h1
    have h2 : toEpochDays ⟨ya, ma + 1, 1⟩ ≤ toEpochDays ⟨ya, mb, 1⟩ := by
      have := monthStart_mono ya (mb - (ma + 1)) (ma + 1) (by omega) (by omega)
      have hrw : ma + 1 + (mb - (ma + 1)) = mb := by omega
      rw [hrw] at this
      exact this
    have h3 := toEpochDays_day_affine ya mb 1 db
    omega
  · -- same month, strictly later day
    subst hy hm
    have := toEpochDays_day_affine ya ma da db
    omega

theorem toEpochDays_inj {a b : Civil} (ha : a.Valid) (hb : b.Valid)
    (h : toEpochDays a = toEpochDays b) : a = b := by
  obtain ⟨ya, ma, da⟩ := a
  obtain ⟨yb, mb, db⟩ := b
  rcases (by omega :
      ya < yb ∨ yb < ya ∨
        (ya = yb ∧ (ma < mb ∨ mb < ma ∨
          (ma = mb ∧ (da < db ∨ db < da ∨ da = db))))) with
    h1 | h1 | ⟨hy, h1 | h1 | ⟨hm, h1 | h1 | h1⟩⟩
  · exact absurd h (by
      have := toEpochDays_strictMono ha hb (Or.inl h1)
      omega)
  · exact absurd h (by
      have := toEpochDays_strictMono hb ha (Or.inl h1)
      omega)
  · exact absurd h (by
      have := toEpochDays_strictMono ha hb (Or.inr ⟨hy, Or.inl h1⟩)
      omega)
  · exact absurd h (by
      have := toEpochDays_strictMono hb ha (Or.inr ⟨hy.symm, Or.inl h1⟩)
      omega)
  · exact absurd h (by
      have := toEpochDays_strictMono ha hb (Or.inr ⟨hy, Or.inr ⟨hm, h1⟩⟩)
      omega)
  · exact absurd h (by
      have := toEpochDays_strictMono hb ha
        (Or.inr ⟨hy.symm, Or.inr ⟨hm.symm, h1⟩⟩)
      omega)
  · subst hy hm h1; rfl

/-- Round trip in the other direction, on valid calendar dates. -/
theorem fromEpochDays_toEpochDays (c : Civil) (h : c.Valid) :
    fromEpochDays (toEpochDays c) = c :=
  toEpochDays_inj (fromEpochDays_valid _) h (toEpochDays_fromEpochDays _)

-- 2024-01-03 is a Wednesday; the next weekly boundary is Monday
-- 2024-01-08 (day 7), the week start is Monday 2024-01-01 (day 0).
example : next_bucket "weekly" ⟨2, 555⟩ = ⟨7, 0⟩ := by decide
example : start_of_bucket "weekly" ⟨2, 555⟩ = ⟨0, 0⟩ := by decide
example : next_bucket "monthly" ⟨40, 0⟩ = ⟨60, 0⟩ := by decide
example : start_of_bucket "monthly" ⟨40, 0⟩ = ⟨31, 0⟩ := by decide
example : next_bucket "yearly" ⟨40, 0⟩ = ⟨366, 0⟩ := by decide
-- ISO weeks at the 2023/2024 year boundary: 2023-12-30 (day -2) and
-- 2023-12-31 (day -1, a Sunday) share ISO week 2023-W52, while
-- 2024-01-01 (day 0, a Monday) opens ISO week 2024-W1.
example : isoCal (-1) = (2023, 52) := by decide
example : isoCal 0 = (2024, 1) := by decide
example : same_bucket "weekly" ⟨-2, 0⟩ ⟨-1, 0⟩ = true := by decide
example : same_bucket "weekly" ⟨-1, 0⟩ ⟨0, 0⟩ = false := by decide
example : same_bucket "weekly" ⟨0, 0⟩ ⟨3, 100⟩ = true := by decide

theorem next_bucket_tod (size : String) (t : DateTime) :
    (next_bucket size t).tod = 0 := by
  unfold next_bucket
  split_ifs <;> rfl

/-- Every granularity's next boundary is strictly after the date. -/
theorem dtLt_next_bucket (size : String) (t : DateTime) :
    dtLt t (next_bucket size t) := by
  unfold next_bucket
  split_ifs
  · refine Or.inl ?_
    show t.days < t.days + 1 + (-(t.days + 1)) % 7
    omega
  · refine Or.inl ?_
    show t.days < toEpochDays ⟨(fromEpochDays t.days).y + 1, 1, 1⟩
    have hrt := toEpochDays_fromEpochDays t.days
    have h1 := toEpochDays_lt_nextYearStart _ (fromEpochDays_valid t.days)
    omega
  · refine Or.inl ?_
    show t.days < toEpochDays (nextMonthStart (fromEpochDays t.days))
    have hrt := toEpochDays_fromEpochDays t.days
    have h1 := toEpochDays_lt_nextMonthStart _ (fromEpochDays_valid t.days)
    omega
  · refine Or.inl ?_
    show t.days < t.days + 1
    omega

/-- The next bucket boundary after a date equals the next bucket
boundary after the date's own bucket start: normalizing first does not
change the following boundary. -/
theorem next_bucket_start_of_bucket (size : String) (t : DateTime) :
    next_bucket size (start_of_bucket size t) = next_bucket size t := by
  unfold next_bucket start_of_bucket
  split_ifs
  · simp only [DateTime.mk.injEq]
    refine ⟨?_, trivial⟩
    show t.days - t.days % 7 + 1 + (-(t.days - t.days % 7 + 1)) % 7 =
      t.days + 1 + (-(t.days + 1)) % 7
    omega
  · have hv : (Civil.mk (fromEpochDays t.days).y 1 1).Valid :=
      civil_valid_first (le_refl _) (by omega)
    simp [fromEpochDays_toEpochDays _ hv]
  · have hvt := fromEpochDays_valid t.days
    have hv : (Civil.mk (fromEpochDays t.days).y (fromEpochDays t.days).m 1).Valid :=
      civil_valid_first hvt.1 hvt.2.1
    simp [fromEpochDays_toEpochDays _ hv, nextMonthStart]
  · rfl

-- Spec end-to-end check: 2024-01-01 to 2024-01-03 daily under one
-- all-covering period gives exactly the two buckets
-- [2024-01-01, 2024-01-02) and [2024-01-02, 2024-01-03).
example :
    divide_time_range allSizes [samplePeriod] ⟨0, 0⟩ ⟨2, 0⟩ (some "daily") =
      some ([⟨⟨0, 0⟩, ⟨1, 0⟩, 1, 2, 3⟩, ⟨⟨1, 0⟩, ⟨2, 0⟩, 1, 2, 3⟩],
        "daily") := by decide

example :
    divide_time_range allSizes [samplePeriod] ⟨0, 0⟩ ⟨62, 0⟩ (some "monthly") =
      some ([⟨⟨0, 0⟩, ⟨31, 0⟩, 1, 2, 3⟩, ⟨⟨31, 0⟩, ⟨60, 0⟩, 1, 2, 3⟩,
        ⟨⟨60, 0⟩, ⟨62, 0⟩, 1, 2, 3⟩], "monthly") := by decide

theorem next_bucket_validT (size : String) (t : DateTime) :
    (next_bucket size t).ValidT := by
  unfold DateTime.ValidT
  rw [next_bucket_tod]
  decide

theorem dtMin_validT {a b : DateTime} (ha : a.ValidT) (hb : b.ValidT) :
    (dtMin a b).ValidT := by
  unfold dtMin
  split <;> assumption

theorem stepPe_gt {e s : DateTime} (size : String) (per : Period)
    (h : dtLt s e) : dtLt s (stepPe e size s per) := by
  unfold stepPe
  split_ifs with hc
  · exact dtLt_dtMin (dtLt_dtMin (dtLt_next_bucket size s) hc) h
  · exact dtLt_dtMin (dtLt_next_bucket size s) h

theorem stepPe_le_end (e : DateTime) (size : String) (s : DateTime)
    (per : Period) : dtLe (stepPe e size s per) e := by
  unfold stepPe
  split_ifs
  · exact dtMin_le_right _ _
  · exact dtMin_le_right _ _

theorem stepPe_eq_end {e s : DateTime} (size : String) (per : Period)
    (h : dtLt e s) : stepPe e size s per = e := by
  unfold stepPe
  split_ifs with hc
  · exact dtMin_eq_right
      (dtLt_dtMin (dtLt_trans h (dtLt_next_bucket size s)) (dtLt_trans h hc))
  · exact dtMin_eq_right (dtLt_trans h (dtLt_next_bucket size s))

theorem stepPe_validT {e : DateTime} (size : String) (s : DateTime)
    {per : Period} (he : e.ValidT) (hp : per.period_end.ValidT) :
    (stepPe e size s per).ValidT := by
  unfold stepPe
  split_ifs
  · exact dtMin_validT (dtMin_validT (next_bucket_validT size s) hp) he
  · exact dtMin_validT (next_bucket_validT size s) he

theorem advanceOnce_validT {s : DateTime} {per : Period} {np : Option Period}
    {rest : List Period} (h1 : per.period_end.ValidT)
    (h2 : ∀ p ∈ rest, p.period_end.ValidT) :
    (advanceOnce s per np rest).1.period_end.ValidT ∧
      (∀ p ∈ (advanceOnce s per np rest).2.2, p.period_end.ValidT) := by
  unfold advanceOnce
  split_ifs with h
  · cases rest with
    | nil => exact ⟨h1, by intro p hp; cases hp⟩
    | cons q r2 =>
      exact ⟨h2 q (by simp), fun p hp => h2 p (by simp [hp])⟩
  · exact ⟨h1, h2⟩

theorem advanceFull_validT {s : DateTime} :
    ∀ {per : Period} {np : Option Period} {rest : List Period},
      per.period_end.ValidT → (∀ p ∈ rest, p.period_end.ValidT) →
      (advanceFull s per np rest).1.period_end.ValidT ∧
        (∀ p ∈ (advanceFull s per np rest).2.2, p.period_end.ValidT)
  | per, np, [], h1, h2 => by
    unfold advanceFull
    split_ifs <;> exact ⟨h1, h2⟩
  | per, np, q :: r2, h1, h2 => by
    unfold advanceFull
    split_ifs with h
    · exact advanceFull_validT (h2 q (by simp)) (fun p hp => h2 p (by simp [hp]))
    · exact ⟨h1, h2⟩

theorem walk_succ_of_ne {e : DateTime} {size : String} {fuel : Nat}
    {s : DateTime} {per : Period} {np : Option Period} {rest : List Period}
    {dr : List Bucket} {qp : Nat} (hne : ¬ s = e) :
    walk e size (fuel + 1) s per np rest dr qp =
      walk e size fuel (stepPe e size s (advanceOnce s per np rest).1)
        (advanceOnce s per np rest).1 (advanceOnce s per np rest).2.1
        (advanceOnce s per np rest).2.2
        (if 0 < qp then dr ++ [stepBucket e size s (advanceOnce s per np rest).1]
         else (dr ++ [stepBucket e size s (advanceOnce s per np rest).1]).drop 1)
        (if 0 < qp then qp - 1 else qp) := by
  conv_lhs => rw [walk]
  rw [if_neg hne]
  split_ifs with h <;> rfl

theorem walkAll_succ_of_ne {e : DateTime} {size : String} {fuel : Nat}
    {s : DateTime} {per : Period} {np : Option Period} {rest : List Period}
    (hne : ¬ s = e) :
    walkAll e size (fuel + 1) s per np rest =
      (walkAll e size fuel (stepPe e size s (advanceOnce s per np rest).1)
          (advanceOnce s per np rest).1 (advanceOnce s per np rest).2.1
          (advanceOnce s per np rest).2.2).map
        (fun tl => stepBucket e size s (advanceOnce s per np rest).1 :: tl) := by
  conv_lhs => rw [walkAll]
  rw [if_neg hne]

/-- The capped walk result is the uncapped bucket trace with all but
the last (initial budget + accumulated) entries evicted from the
front. -/
theorem walk_eq_walkAll (e : DateTime) (size : String) :
    ∀ (fuel : Nat) (s : DateTime) (per : Period) (np : Option Period)
      (rest : List Period) (dr : List Bucket) (qp : Nat),
      walk e size fuel s per np rest dr qp =
        (walkAll e size fuel s per np rest).map
          (fun tl => (dr ++ tl).drop (tl.length - qp))
  | 0, s, per, np, rest, dr, qp => by
    rw [walk, walkAll]
    rfl
  | fuel + 1, s, per, np, rest, dr, qp => by
    by_cases hse : s = e
    · subst hse
      rw [walk, walkAll]
      simp
    · rw [walk_succ_of_ne hse, walkAll_succ_of_ne hse,
        walk_eq_walkAll e size fuel]
      rcases hwa : walkAll e size fuel (stepPe e size s (advanceOnce s per np rest).1)
          (advanceOnce s per np rest).1 (advanceOnce s per np rest).2.1
          (advanceOnce s per np rest).2.2 with _ | tl
      · rfl
      · first
          | simp only [Option.map_some]
          | simp only [Option.map_some']
        congr 1
        by_cases hqp : 0 < qp
        · rw [if_pos hqp, if_pos hqp]
          have hidx : tl.length - (qp - 1) = (tl.length + 1) - qp := by omega
          rw [hidx]
          simp [List.append_assoc]
        · rw [if_neg hqp, if_neg hqp]
          have hq0 : qp = 0 := by omega
          subst hq0
          have hlen : 1 ≤
              (dr ++ [stepBucket e size s (advanceOnce s per np rest).1]).length := by
            simp
          rw [← List.drop_append_of_le_length hlen, List.drop_drop]
          have hassoc : (dr ++ [stepBucket e size s (advanceOnce s per np rest).1]) ++ tl =
              dr ++ stepBucket e size s (advanceOnce s per np rest).1 :: tl := by
            simp
          rw [hassoc]
          congr 1
          simp
          omega

theorem walkMeasure_decreasing {e s pe : DateTime} (hs : s.ValidT)
    (hpe : pe.ValidT) (h1 : dtLt s pe) (h2 : dtLe pe e) :
    walkMeasure e pe < walkMeasure e s := by
  unfold walkMeasure microsPerDay
  unfold DateTime.ValidT microsPerDay at hs hpe
  have hle : pe.days ≤ e.days := by
    rcases h2 with h2 | rfl
    · rcases h2 with h3 | ⟨h3, _⟩ <;> omega
    · omega
  rcases h1 with hd | ⟨hd, ht⟩ <;> omega

/-- With enough fuel the capped walk completes. -/
theorem walk_isSome (e : DateTime) (size : String) :
    ∀ (fuel : Nat) (s : DateTime) (per : Period) (np : Option Period)
      (rest : List Period) (dr : List Bucket) (qp : Nat),
      e.ValidT → s.ValidT → per.period_end.ValidT →
      (∀ p ∈ rest, p.period_end.ValidT) →
      ((s = e ∧ 1 ≤ fuel) ∨ (dtLt s e ∧ walkMeasure e s + 2 ≤ fuel) ∨
        (dtLt e s ∧ walkMeasure e e + 3 ≤ fuel)) →
      (walk e size fuel s per np rest dr qp).isSome = true
  | 0, s, per, np, rest, dr, qp, he, hs, hp, hr, hfuel => by
    rcases hfuel with ⟨_, h⟩ | ⟨_, h⟩ | ⟨_, h⟩ <;> omega
  | fuel + 1, s, per, np, rest, dr, qp, he, hs, hp, hr, hfuel => by
    by_cases hse : s = e
    · rw [walk, if_pos hse]
      rfl
    · rw [walk_succ_of_ne hse]
      have hadv := @advanceOnce_validT s per np rest hp hr
      have hpev : (stepPe e size s (advanceOnce s per np rest).1).ValidT :=
        stepPe_validT size s he hadv.1
      apply walk_isSome e size fuel _ _ _ _ _ _ he hpev hadv.1 hadv.2
      rcases hfuel with ⟨hcontra, _⟩ | ⟨hlt, hf⟩ | ⟨hgt, hf⟩
      · exact absurd hcontra hse
      · have hgt2 : dtLt s (stepPe e size s (advanceOnce s per np rest).1) :=
          stepPe_gt size _ hlt
        rcases stepPe_le_end e size s (advanceOnce s per np rest).1 with hlt2 | heq2
        · refine Or.inr (Or.inl ⟨hlt2, ?_⟩)
          have := walkMeasure_decreasing hs hpev hgt2 (dtLe_of_lt hlt2)
          omega
        · rw [heq2]
          refine Or.inl ⟨rfl, ?_⟩
          omega
      · rw [stepPe_eq_end size _ hgt]
        refine Or.inl ⟨rfl, ?_⟩
        omega

/-- The capped and uncapped walks succeed together. -/
theorem walkAll_isSome_iff (e : DateTime) (size : String) (fuel : Nat)
    (s : DateTime) (per : Period) (np : Option Period) (rest : List Period)
    (dr : List Bucket) (qp : Nat) :
    (walkAll e size fuel s per np rest).isSome = true ↔
      (walk e size fuel s per np rest dr qp).isSome = true := by
  rw [walk_eq_walkAll]
  rcases walkAll e size fuel s per np rest with _ | tl <;> simp

/-- Every bucket the walk emits (when walking forwards) starts at or
after the cursor, ends strictly after it starts, and ends at or before
the range end. -/
theorem walkAll_bucket_bounds (e : DateTime) (size : String) :
    ∀ (fuel : Nat) (s : DateTime) (per : Period) (np : Option Period)
      (rest : List Period) (tl : List Bucket),
      walkAll e size fuel s per np rest = some tl → dtLt s e →
      ∀ b ∈ tl, dtLe s b.start_date ∧ dtLt b.start_date b.end_date ∧
        dtLe b.end_date e
  | 0, s, per, np, rest, tl, h, hlt => by
    rw [walkAll] at h
    cases h
  | fuel + 1, s, per, np, rest, tl, h, hlt => by
    by_cases hse : s = e
    · rw [walkAll, if_pos hse] at h
      cases h
      intro b hb
      cases hb
    · rw [walkAll_succ_of_ne hse] at h
      rcases hwa : walkAll e size fuel (stepPe e size s (advanceOnce s per np rest).1)
          (advanceOnce s per np rest).1 (advanceOnce s per np rest).2.1
          (advanceOnce s per np rest).2.2 with _ | tl2
      · rw [hwa] at h
        cases h
      · rw [hwa] at h
        simp at h
        subst h
        intro b hb
        rcases List.mem_cons.mp hb with rfl | hb2
        · exact ⟨dtLe_refl _, stepPe_gt size _ hlt,
            stepPe_le_end e size s (advanceOnce s per np rest).1⟩
        · rcases stepPe_le_end e size s (advanceOnce s per np rest).1 with
            hlt2 | heq2
          · have hrec := walkAll_bucket_bounds e size fuel _ _ _ _ _ hwa hlt2
              b hb2
            exact ⟨dtLe_trans (dtLe_of_lt (stepPe_gt size _ hlt)) hrec.1,
              hrec.2⟩
          · exfalso
            rw [heq2] at hwa
            have : tl2 = [] := by
              rcases fuel with _ | fuel2
              · rw [walkAll] at hwa
                cases hwa
              · rw [walkAll, if_pos rfl] at hwa
                simpa using hwa.symm
            subst this
            cases hb2

/-- Every successful uncapped walk yields a contiguous bucket chain
from the cursor to the end date. -/
theorem walkAll_chainFromTo (e : DateTime) (size : String) :
    ∀ (fuel : Nat) (s : DateTime) (per : Period) (np : Option Period)
      (rest : List Period) (tl : List Bucket),
      walkAll e size fuel s per np rest = some tl → chainFromTo s e tl
  | 0, s, per, np, rest, tl, h => by
    rw [walkAll] at h
    cases h
  | fuel + 1, s, per, np, rest, tl, h => by
    by_cases hse : s = e
    · subst hse
      rw [walkAll] at h
      simp at h
      subst h
      exact rfl
    · rw [walkAll_succ_of_ne hse] at h
      rcases hwa : walkAll e size fuel (stepPe e size s (advanceOnce s per np rest).1)
          (advanceOnce s per np rest).1 (advanceOnce s per np rest).2.1
          (advanceOnce s per np rest).2.2 with _ | tl2
      · rw [hwa] at h
        cases h
      · rw [hwa] at h
        simp at h
        subst h
        exact ⟨rfl, walkAll_chainFromTo e size fuel _ _ _ _ _ hwa⟩

theorem chainFromTo_chain (e : DateTime) :
    ∀ (l : List Bucket) (s : DateTime), chainFromTo s e l →
      List.Chain' (fun a b => a.end_date = b.start_date) l
  | [], _, _ => List.chain'_nil
  | [b], _, _ => List.chain'_singleton b
  | b :: b2 :: tl, s, h => by
    obtain ⟨hb, hrest⟩ := h
    have hrel : b.end_date = b2.start_date := hrest.1.symm
    exact List.chain'_cons.mpr ⟨hrel, chainFromTo_chain e (b2 :: tl) _ hrest⟩

theorem chainFromTo_getLast (e : DateTime) :
    ∀ (l : List Bucket) (s : DateTime) (h : chainFromTo s e l)
      (hne : l ≠ []), (l.getLast hne).end_date = e
  | [b], _, h, _ => h.2
  | b :: b2 :: tl, s, h, hne => by
    rw [List.getLast_cons (by simp : (b2 :: tl) ≠ [])]
    exact chainFromTo_getLast e (b2 :: tl) _ h.2 (by simp)

theorem chain_drop {α : Type} {R : α → α → Prop} :
    ∀ (k : Nat) (l : List α), List.Chain' R l → List.Chain' R (l.drop k)
  | 0, _, h => h
  | k + 1, [], _ => by simp
  | k + 1, a :: tl, h => chain_drop k tl h.tail

theorem getLast_drop_eq {α : Type} :
    ∀ (l : List α) (k : Nat), k < l.length →
      (l.drop k).getLast? = l.getLast?
  | _, 0, _ => rfl
  | [], k + 1, h => absurd h (by simp)
  | a :: tl, k + 1, h => by
    have h2 : k < tl.length := by simpa using Nat.lt_of_succ_lt_succ h
    show (tl.drop k).getLast? = (a :: tl).getLast?
    rw [getLast_drop_eq tl k h2]
    cases tl with
    | nil => exact absurd h2 (by simp)
    | cons b tl2 => exact (List.getLast?_cons_cons).symm

/-- divide_time_range is the uncapped trace with everything except the
last 62 buckets evicted from the front. -/
theorem divide_eq_walkTrace (V : List String) (ps : List Period)
    (s e : DateTime) (bs : Option String) :
    divide_time_range V ps s e bs =
      (walkTrace V ps s e bs).map
        (fun tl => (tl.drop (tl.length - 62), resolveSize V bs)) := by
  unfold divide_time_range walkTrace
  cases ps with
  | nil => rfl
  | cons p rest =>
    simp only
    rw [walk_eq_walkAll]
    rcases walkAll e (resolveSize V bs)
        (fuelFor s e) s (advanceFull s p (some p) rest).1
        (advanceFull s p (some p) rest).2.1
        (advanceFull s p (some p) rest).2.2 with _ | tl
    · rfl
    · simp

/-- Under real datetimes and a nonempty pricing-period table,
divide_time_range returns a result. -/
theorem divide_time_range_isSome (V : List String) (ps : List Period)
    (s e : DateTime) (bs : Option String) (hps : ps ≠ [])
    (he : e.ValidT) (hs : s.ValidT)
    (hp : ∀ p ∈ ps, p.period_end.ValidT) :
    (divide_time_range V ps s e bs).isSome = true := by
  unfold divide_time_range
  cases ps with
  | nil => exact absurd rfl hps
  | cons p rest =>
    simp only
    have hadv := @advanceFull_validT s p (some p) rest
      (hp p (by simp)) (fun q hq => hp q (List.mem_cons_of_mem _ hq))
    have hfuel : (s = e ∧ 1 ≤ fuelFor s e) ∨
        (dtLt s e ∧ walkMeasure e s + 2 ≤ fuelFor s e) ∨
        (dtLt e s ∧ walkMeasure e e + 3 ≤ fuelFor s e) := by
      rcases dtLt_trichotomy s e with hlt | heq | hgt
      · refine Or.inr (Or.inl ⟨hlt, ?_⟩)
        have hsd : s.days ≤ e.days := by
          rcases hlt with h1 | ⟨h1, _⟩ <;> omega
        unfold walkMeasure fuelFor microsPerDay
        unfold DateTime.ValidT microsPerDay at hs
        omega
      · refine Or.inl ⟨heq, ?_⟩
        unfold fuelFor microsPerDay
        omega
      · refine Or.inr (Or.inr ⟨hgt, ?_⟩)
        have hsd : e.days ≤ s.days := by
          rcases hgt with h1 | ⟨h1, _⟩ <;> omega
        unfold walkMeasure fuelFor microsPerDay
        unfold DateTime.ValidT microsPerDay at he
        omega
    have hw := walk_isSome e (resolveSize V bs) (fuelFor s e) s
      (advanceFull s p (some p) rest).1 (advanceFull s p (some p) rest).2.1
      (advanceFull s p (some p) rest).2.2 [] 62 he hs hadv.1 hadv.2 hfuel
    rcases hwk : walk e (resolveSize V bs) (fuelFor s e) s
        (advanceFull s p (some p) rest).1 (advanceFull s p (some p) rest).2.1
        (advanceFull s p (some p) rest).2.2 [] 62 with _ | dr
    · rw [hwk] at hw
      cases hw
    · rfl

theorem walkTrace_chainFromTo {V : List String} {ps : List Period}
    {s e : DateTime} {bs : Option String} {tl : List Bucket}
    (h : walkTrace V ps s e bs = some tl) : chainFromTo s e tl := by
  unfold walkTrace at h
  cases ps with
  | nil => cases h
  | cons p rest => exact walkAll_chainFromTo e (resolveSize V bs) _ _ _ _ _ _ h

theorem walkTrace_bounds {V : List String} {ps : List Period}
    {s e : DateTime} {bs : Option String} {tl : List Bucket}
    (h : walkTrace V ps s e bs = some tl) (hlt : dtLt s e) :
    ∀ b ∈ tl, dtLe s b.start_date ∧ dtLt b.start_date b.end_date ∧
      dtLe b.end_date e := by
  unfold walkTrace at h
  cases ps with
  | nil => cases h
  | cons p rest =>
    exact walkAll_bucket_bounds e (resolveSize V bs) _ _ _ _ _ _ h hlt

theorem divide_some_walkTrace {V : List String} {ps : List Period}
    {s e : DateTime} {bs : Option String} {dr : List Bucket} {sz : String}
    (h : divide_time_range V ps s e bs = some (dr, sz)) :
    ∃ tl, walkTrace V ps s e bs = some tl ∧
      dr = tl.drop (tl.length - 62) ∧ sz = resolveSize V bs := by
  rw [divide_eq_walkTrace] at h
  rcases hwt : walkTrace V ps s e bs with _ | tl
  · rw [hwt] at h
    cases h
  · rw [hwt] at h
    simp at h
    exact ⟨tl, rfl, h.1.symm, h.2.symm⟩

/-- C1 (amended part): for start < end the retained bucket list of
divide_time_range is nonempty, contiguous (each bucket's end_date is
the next bucket's start_date), every retained bucket — in particular
the first — starts at or after the requested start, and the last
retained bucket ends exactly at the requested end. -/
theorem c1_buckets_contiguous_cover (V : List String) (ps : List Period)
    (s e : DateTime) (bs : Option String) (dr : List Bucket) (sz : String)
    (hlt : dtLt s e)
    (hdiv : divide_time_range V ps s e bs = some (dr, sz)) :
    dr ≠ [] ∧
    List.Chain' (fun a b => a.end_date = b.start_date) dr ∧
    (∀ b, dr.head? = some b → dtLe s b.start_date) ∧
    (∀ hne : dr ≠ [], (dr.getLast hne).end_date = e) := by
  obtain ⟨tl, hwt, hdrop, hsz⟩ := divide_some_walkTrace hdiv
  have hchain := walkTrace_chainFromTo hwt
  have htlne : tl ≠ [] := by
    intro hnil
    subst hnil
    exact dtLt_irrefl s (hchain ▸ hlt)
  have hlen : 0 < tl.length := List.length_pos.mpr htlne
  have hk : tl.length - 62 < tl.length := by omega
  have hdrne : dr ≠ [] := by
    subst hdrop
    intro hnil
    have := List.length_drop (tl.length - 62) tl
    rw [hnil] at this
    simp at this
    omega
  refine ⟨hdrne, ?_, ?_, ?_⟩
  · subst hdrop
    exact chain_drop _ tl (chainFromTo_chain e tl s hchain)
  · intro b hb
    have hmem : b ∈ dr := List.mem_of_mem_head? hb
    have hmem2 : b ∈ tl := by
      subst hdrop
      exact List.drop_subset _ tl hmem
    exact (walkTrace_bounds hwt hlt b hmem2).1
  · intro hne
    have h1 : dr.getLast? = some (dr.getLast hne) :=
      List.getLast?_eq_getLast dr hne
    have h2 : tl.getLast? = some (tl.getLast htlne) :=
      List.getLast?_eq_getLast tl htlne
    have h3 : dr.getLast? = tl.getLast? := by
      subst hdrop
      exact getLast_drop_eq tl _ hk
    have h4 : dr.getLast hne = tl.getLast htlne := by
      rw [h1, h2] at h3
      exact Option.some.inj h3
    rw [h4]
    exact chainFromTo_getLast e tl s hchain htlne

/-- C1 witness input: a two-day daily range. -/
theorem c1_buckets_contiguous_cover_witness :
    dtLt (⟨0, 0⟩ : DateTime) ⟨2, 0⟩ ∧
    (([⟨⟨0, 0⟩, ⟨1, 0⟩, 1, 2, 3⟩, ⟨⟨1, 0⟩, ⟨2, 0⟩, 1, 2, 3⟩] : List Bucket) ≠ [] ∧
      List.Chain' (fun a b => a.end_date = b.start_date)
        ([⟨⟨0, 0⟩, ⟨1, 0⟩, 1, 2, 3⟩, ⟨⟨1, 0⟩, ⟨2, 0⟩, 1, 2, 3⟩] : List Bucket) ∧
      (∀ b, (([⟨⟨0, 0⟩, ⟨1, 0⟩, 1, 2, 3⟩, ⟨⟨1, 0⟩, ⟨2, 0⟩, 1, 2, 3⟩] :
          List Bucket)).head? = some b → dtLe ⟨0, 0⟩ b.start_date) ∧
      (∀ hne : ([⟨⟨0, 0⟩, ⟨1, 0⟩, 1, 2, 3⟩, ⟨⟨1, 0⟩, ⟨2, 0⟩, 1, 2, 3⟩] :
          List Bucket) ≠ [],
        ((([⟨⟨0, 0⟩, ⟨1, 0⟩, 1, 2, 3⟩, ⟨⟨1, 0⟩, ⟨2, 0⟩, 1, 2, 3⟩] :
          List Bucket)).getLast hne).end_date = ⟨2, 0⟩)) :=
  ⟨by decide,
    c1_buckets_contiguous_cover allSizes [samplePeriod] ⟨0, 0⟩ ⟨2, 0⟩
      (some "daily")
      [⟨⟨0, 0⟩, ⟨1, 0⟩, 1, 2, 3⟩, ⟨⟨1, 0⟩, ⟨2, 0⟩, 1, 2, 3⟩] "daily"
      (by decide) (by decide)⟩

/-- C1 counterexample to the original claim: over a 63-day daily range
the first retained bucket starts one day after the requested start, so
its start is not ≤ the requested start. -/
theorem c1_first_start_counterexample :
    ((divide_time_range allSizes [samplePeriod] ⟨0, 0⟩ ⟨63, 0⟩
        (some "daily")).map (fun r => r.1.head?.map Bucket.start_date)) =
      some (some ⟨1, 0⟩) ∧
    ¬ dtLe (⟨1, 0⟩ : DateTime) ⟨0, 0⟩ :=
  ⟨by decide, by decide⟩

/-- C2: for start < end the bucket walk of divide_time_range
terminates with a result; along the walk the cursor strictly increases
(every visited bucket ends strictly after it starts) and the walk
reaches the end date exactly (the visited buckets chain from start to
end, the last ending exactly at the end date). -/
theorem c2_walk_terminates (V : List String) (ps : List Period)
    (s e : DateTime) (bs : Option String) (hps : ps ≠ [])
    (he : e.ValidT) (hs : s.ValidT)
    (hp : ∀ p ∈ ps, p.period_end.ValidT) (hlt : dtLt s e) :
    ∃ dr sz tl, divide_time_range V ps s e bs = some (dr, sz) ∧
      walkTrace V ps s e bs = some tl ∧
      (∀ b ∈ tl, dtLt b.start_date b.end_date) ∧
      chainFromTo s e tl := by
  have hsome := divide_time_range_isSome V ps s e bs hps he hs hp
  rcases hdiv : divide_time_range V ps s e bs with _ | r
  · rw [hdiv] at hsome
    cases hsome
  · obtain ⟨dr, sz⟩ := r
    obtain ⟨tl, hwt, hdrop, hsz⟩ := divide_some_walkTrace hdiv
    exact ⟨dr, sz, tl, rfl, hwt,
      fun b hb => (walkTrace_bounds hwt hlt b hb).2.1,
      walkTrace_chainFromTo hwt⟩

/-- C2 witness input: a two-day daily range. -/
theorem c2_walk_terminates_witness :
    (([samplePeriod] : List Period) ≠ [] ∧
      (⟨2, 0⟩ : DateTime).ValidT ∧ (⟨0, 0⟩ : DateTime).ValidT ∧
      (∀ p ∈ ([samplePeriod] : List Period), p.period_end.ValidT) ∧
      dtLt (⟨0, 0⟩ : DateTime) ⟨2, 0⟩) ∧
    (∃ dr sz tl,
      divide_time_range allSizes [samplePeriod] ⟨0, 0⟩ ⟨2, 0⟩
        (some "daily") = some (dr, sz) ∧
      walkTrace allSizes [samplePeriod] ⟨0, 0⟩ ⟨2, 0⟩ (some "daily") =
        some tl ∧
      (∀ b ∈ tl, dtLt b.start_date b.end_date) ∧
      chainFromTo ⟨0, 0⟩ ⟨2, 0⟩ tl) :=
  ⟨⟨by decide, by decide, by decide, by decide, by decide⟩,
    c2_walk_terminates allSizes [samplePeriod] ⟨0, 0⟩ ⟨2, 0⟩ (some "daily")
      (by decide) (by decide) (by decide) (by decide) (by decide)⟩

/-- C3: whatever the input range and granularity, the returned list of
divide_time_range holds at most 62 buckets and equals the full
uncapped walk trace with all but the last 62 visited buckets evicted
from the front (FIFO eviction of the oldest result buckets), while the
trace itself still walks the entire range: it chains contiguously from
the requested start to the requested end. -/
theorem c3_output_window (V : List String) (ps : List Period)
    (s e : DateTime) (bs : Option String) (dr : List Bucket) (sz : String)
    (hdiv : divide_time_range V ps s e bs = some (dr, sz)) :
    ∃ tl, walkTrace V ps s e bs = some tl ∧
      dr = tl.drop (tl.length - 62) ∧
      dr.length ≤ 62 ∧
      chainFromTo s e tl := by
  obtain ⟨tl, hwt, hdrop, hsz⟩ := divide_some_walkTrace hdiv
  refine ⟨tl, hwt, hdrop, ?_, walkTrace_chainFromTo hwt⟩
  subst hdrop
  rw [List.length_drop]
  omega

/-- C3 witness input: a two-day daily range. -/
theorem c3_output_window_witness :
    ∃ tl, walkTrace allSizes [samplePeriod] ⟨0, 0⟩ ⟨2, 0⟩ (some "daily") =
        some tl ∧
      ([⟨⟨0, 0⟩, ⟨1, 0⟩, 1, 2, 3⟩, ⟨⟨1, 0⟩, ⟨2, 0⟩, 1, 2, 3⟩] : List Bucket) =
        tl.drop (tl.length - 62) ∧
      ([⟨⟨0, 0⟩, ⟨1, 0⟩, 1, 2, 3⟩, ⟨⟨1, 0⟩, ⟨2, 0⟩, 1, 2, 3⟩] :
        List Bucket).length ≤ 62 ∧
      chainFromTo ⟨0, 0⟩ ⟨2, 0⟩ tl :=
  c3_output_window allSizes [samplePeriod] ⟨0, 0⟩ ⟨2, 0⟩ (some "daily")
    [⟨⟨0, 0⟩, ⟨1, 0⟩, 1, 2, 3⟩, ⟨⟨1, 0⟩, ⟨2, 0⟩, 1, 2, 3⟩] "daily"
    (by decide)

/-- C10: when the requested start is strictly after the requested end,
divide_time_range still returns (no exception), with exactly one
bucket, whose start_date is the requested start and whose end_date is
the requested end. -/
theorem c10_inverted_range (V : List String) (ps : List Period)
    (s e : DateTime) (bs : Option String) (hps : ps ≠ [])
    (hgt : dtLt e s) :
    ∃ b sz, divide_time_range V ps s e bs = some ([b], sz) ∧
      b.start_date = s ∧ b.end_date = e := by
  obtain ⟨F, hF⟩ : ∃ F, fuelFor s e = F + 2 :=
    ⟨fuelFor s e - 2, by unfold fuelFor microsPerDay; omega⟩
  unfold divide_time_range
  cases ps with
  | nil => exact absurd rfl hps
  | cons p rest =>
    simp only
    rw [hF]
    have hne : ¬ s = e := fun hc => dtLt_irrefl e (hc ▸ hgt)
    rw [walk_succ_of_ne hne]
    rw [if_pos (by norm_num : (0 : Nat) < 62), if_pos (by norm_num : (0 : Nat) < 62)]
    rw [stepPe_eq_end (resolveSize V bs) _ hgt]
    rw [walk, if_pos rfl]
    refine ⟨stepBucket e (resolveSize V bs) s
      (advanceOnce s (advanceFull s p (some p) rest).1
        (advanceFull s p (some p) rest).2.1
        (advanceFull s p (some p) rest).2.2).1, resolveSize V bs, ?_, rfl,
      stepPe_eq_end (resolveSize V bs) _ hgt⟩
    simp

theorem dtLe_antisymm {a b : DateTime} (h1 : dtLe a b) (h2 : dtLe b a) :
    a = b := by
  rcases h1 with h1 | rfl
  · rcases h2 with h2 | rfl
    · exact absurd h2 (dtLt_asymm h1)
    · rfl
  · rfl

theorem not_dtLe_iff {a b : DateTime} : ¬ dtLe a b ↔ dtLt b a := by
  constructor
  · intro h
    rcases dtLt_trichotomy b a with h1 | rfl | h1
    · exact h1
    · exact absurd (dtLe_refl _) h
    · exact absurd (dtLe_of_lt h1) h
  · intro h hle
    rcases hle with h2 | rfl
    · exact dtLt_asymm h2 h
    · exact dtLt_irrefl a h

theorem find?_concat_eq {α : Type} (pred : α → Bool) :
    ∀ (pre : List α) (x : α) (suf : List α),
      (∀ p ∈ pre, pred p = false) → pred x = true →
      (pre ++ x :: suf).find? pred = some x
  | [], x, suf, _, hx => by
    simpa using List.find?_cons_of_pos (l := suf) hx
  | a :: pre2, x, suf, hpre, hx => by
    have ha : pred a = false := hpre a (by simp)
    show ((a :: (pre2 ++ x :: suf)).find? pred) = some x
    rw [List.find?_cons]
    rw [ha]
    exact find?_concat_eq pred pre2 x suf
      (fun p hp => hpre p (by simp [hp])) hx

/-- The cursor-advance performed at the top of a walk iteration sends
a reachable cursor state to the pricing period active at the cursor
date (the last period if every period has ended), together with the
facts needed to re-establish reachability at the next cursor date. -/
theorem advanceOnce_spec {ps : List Period} {s : DateTime} {per : Period}
    {np : Option Period} {rest : List Period}
    (hsort : List.Pairwise
      (fun a b : Period => dtLt a.period_end b.period_end) ps)
    (hinv : cursorInv ps s per np rest) :
    (activePeriod ps s = some (advanceOnce s per np rest).1 ∨
      (activePeriod ps s = none ∧
        ps.getLast? = some (advanceOnce s per np rest).1)) ∧
    (dtLt s (advanceOnce s per np rest).1.period_end ∨
      ((advanceOnce s per np rest).2.1 = none ∧
        (advanceOnce s per np rest).2.2 = [])) ∧
    ∀ pe : DateTime, dtLe s pe →
      dtLe pe (advanceOnce s per np rest).1.period_end ∨
        ((advanceOnce s per np rest).2.1 = none ∧
          (advanceOnce s per np rest).2.2 = []) →
      cursorInv ps pe (advanceOnce s per np rest).1
        (advanceOnce s per np rest).2.1 (advanceOnce s per np rest).2.2 := by
  rcases hinv with ⟨pre, hps, hnp, hsle, hpre⟩ | ⟨hnp, hrest, hlast, hall⟩
  · by_cases hc : dtLe per.period_end s
    · have hseq : s = per.period_end := dtLe_antisymm hsle hc
      cases rest with
      | nil =>
        have hA : advanceOnce s per np [] = (per, none, []) := by
          unfold advanceOnce
          rw [if_pos ⟨hc, by simp [hnp]⟩]
        rw [hA]
        have hallps : ∀ p ∈ ps, dtLe p.period_end s := by
          intro p hp
          rw [hps] at hp
          rcases List.mem_append.mp hp with hp1 | hp2
          · exact hpre p hp1
          · rcases List.mem_cons.mp hp2 with rfl | hp3
            · exact hc
            · cases hp3
        refine ⟨?_, Or.inr ⟨rfl, rfl⟩, ?_⟩
        · refine Or.inr ⟨?_, ?_⟩
          · unfold activePeriod
            rw [List.find?_eq_none]
            intro p hp
            simp only [decide_eq_true_eq]
            exact not_dtLt_iff.mpr (hallps p hp)
          · rw [hps]
            exact List.getLast?_concat _
        · intro pe hspe _
          refine Or.inr ⟨rfl, rfl, ?_, ?_⟩
          · rw [hps]
            exact List.getLast?_concat _
          · exact fun p hp => dtLe_trans (hallps p hp) hspe
      | cons q rest2 =>
        have hA : advanceOnce s per np (q :: rest2) = (q, some q, rest2) := by
          unfold advanceOnce
          rw [if_pos ⟨hc, by simp [hnp]⟩]
        rw [hA]
        have hq : dtLt per.period_end q.period_end := by
          have h1 : List.Pairwise
              (fun a b : Period => dtLt a.period_end b.period_end)
              (per :: q :: rest2) := by
            rw [hps] at hsort
            exact (List.pairwise_append.mp hsort).2.1
          exact (List.pairwise_cons.mp h1).1 q (by simp)
        have hsq : dtLt s q.period_end := hseq ▸ hq
        refine ⟨?_, Or.inl hsq, ?_⟩
        · refine Or.inl ?_
          unfold activePeriod
          rw [hps, show pre ++ per :: q :: rest2 = (pre ++ [per]) ++ q :: rest2
            from by simp]
          refine find?_concat_eq _ (pre ++ [per]) q rest2 ?_
            (by simp only [decide_eq_true_eq]; exact hsq)
          intro p hp
          simp only [decide_eq_false_iff_not, decide_eq_true_eq]
          rcases List.mem_append.mp hp with hp1 | hp2
          · exact not_dtLt_iff.mpr (hpre p hp1)
          · rcases List.mem_cons.mp hp2 with rfl | hp3
            · exact not_dtLt_iff.mpr hc
            · cases hp3
        · intro pe hspe hple
          rcases hple with hple | ⟨hcon, _⟩
          · refine Or.inl ⟨pre ++ [per], by simp [hps], rfl, hple, ?_⟩
            intro p hp
            rcases List.mem_append.mp hp with hp1 | hp2
            · exact dtLe_trans (hpre p hp1) hspe
            · rcases List.mem_cons.mp hp2 with rfl | hp3
              · exact dtLe_trans hc hspe
              · cases hp3
          · cases hcon
    · have hslt : dtLt s per.period_end := not_dtLe_iff.mp hc
      have hA : advanceOnce s per np rest = (per, np, rest) := by
        unfold advanceOnce
        rw [if_neg (fun hcon => hc hcon.1)]
      rw [hA]
      refine ⟨?_, Or.inl hslt, ?_⟩
      · refine Or.inl ?_
        unfold activePeriod
        rw [hps]
        refine find?_concat_eq _ pre per rest ?_
          (by simp only [decide_eq_true_eq]; exact hslt)
        intro p hp
        simp only [decide_eq_false_iff_not, decide_eq_true_eq]
        exact not_dtLt_iff.mpr (hpre p hp)
      · intro pe hspe hple
        rcases hple with hple | ⟨hcon, _⟩
        · exact Or.inl ⟨pre, hps, hnp, hple,
            fun p hp => dtLe_trans (hpre p hp) hspe⟩
        · have hnone : np = none := hcon
          rw [hnone] at hnp
          cases hnp
  · have hA : advanceOnce s per np rest = (per, np, rest) := by
      unfold advanceOnce
      rw [if_neg (fun hcon => hcon.2 hnp)]
    rw [hA]
    refine ⟨?_, Or.inr ⟨hnp, hrest⟩, ?_⟩
    · refine Or.inr ⟨?_, hlast⟩
      unfold activePeriod
      rw [List.find?_eq_none]
      intro p hp
      simp only [decide_eq_true_eq]
      exact not_dtLt_iff.mpr (hall p hp)
    · intro pe hspe _
      exact Or.inr ⟨hnp, hrest, hlast,
        fun p hp => dtLe_trans (hall p hp) hspe⟩

/-- Along any successful walk started from a reachable cursor state,
every emitted bucket carries exactly the prices of the pricing period
active at the bucket's start (the last period once all periods have
ended). -/
theorem walkAll_rates (e : DateTime) (size : String) (ps : List Period)
    (hsort : List.Pairwise
      (fun a b : Period => dtLt a.period_end b.period_end) ps) :
    ∀ (fuel : Nat) (s : DateTime) (per : Period) (np : Option Period)
      (rest : List Period) (tl : List Bucket),
      walkAll e size fuel s per np rest = some tl →
      (s = e ∨ cursorInv ps s per np rest) →
      ∀ b ∈ tl, ∃ p : Period,
        (activePeriod ps b.start_date = some p ∨
          (activePeriod ps b.start_date = none ∧ ps.getLast? = some p)) ∧
        b.cpu_price = p.cpu_price ∧ b.volume_price = p.volume_price ∧
        b.image_price = p.image_price
  | 0, s, per, np, rest, tl, h, _ => by
    rw [walkAll] at h
    cases h
  | fuel + 1, s, per, np, rest, tl, h, hdisj => by
    by_cases hse : s = e
    · rw [walkAll, if_pos hse] at h
      cases h
      intro b hb
      cases hb
    · have hinv := hdisj.resolve_left hse
      rw [walkAll_succ_of_ne hse] at h
      rcases hwa : walkAll e size fuel (stepPe e size s (advanceOnce s per np rest).1)
          (advanceOnce s per np rest).1 (advanceOnce s per np rest).2.1
          (advanceOnce s per np rest).2.2 with _ | tl2
      · rw [hwa] at h
        cases h
      · rw [hwa] at h
        simp at h
        subst h
        have hspec := advanceOnce_spec hsort hinv
        intro b hb
        rcases List.mem_cons.mp hb with rfl | hb2
        · exact ⟨(advanceOnce s per np rest).1, hspec.1, rfl, rfl, rfl⟩
        · refine walkAll_rates e size ps hsort fuel _ _ _ _ _ hwa ?_ b hb2
          rcases dtLt_trichotomy s e with hlt | heq | hgt
          · rcases stepPe_le_end e size s (advanceOnce s per np rest).1 with
              hlt2 | heq2
            · refine Or.inr
                (hspec.2.2 _ (dtLe_of_lt (stepPe_gt size _ hlt)) ?_)
              rcases hspec.2.1 with hcur | hdone
              · refine Or.inl ?_
                unfold stepPe
                rw [if_pos hcur]
                exact dtLe_trans (dtMin_le_left _ _) (dtMin_le_right _ _)
              · exact Or.inr hdone
            · exact Or.inl heq2
          · exact absurd heq hse
          · exact Or.inl (stepPe_eq_end size _ hgt)

/-- The initial cursor loop of divide_time_range establishes the
cursor invariant: starting from the head of the period list it
advances past every period already ended at the range start. -/
theorem advanceFull_cursorInv (s : DateTime) :
    ∀ (rest : List Period) (per : Period) (pre : List Period),
      (∀ q ∈ pre, dtLe q.period_end s) →
      cursorInv (pre ++ per :: rest) s
        (advanceFull s per (some per) rest).1
        (advanceFull s per (some per) rest).2.1
        (advanceFull s per (some per) rest).2.2
  | [], per, pre, hpre => by
    by_cases hc : dtLe per.period_end s
    · have hA : advanceFull s per (some per) [] = (per, none, []) := by
        unfold advanceFull
        rw [if_pos ⟨hc, by simp⟩]
      rw [hA]
      refine Or.inr ⟨rfl, rfl, List.getLast?_concat _, ?_⟩
      intro p hp
      rcases List.mem_append.mp hp with hp1 | hp2
      · exact hpre p hp1
      · rcases List.mem_cons.mp hp2 with rfl | hp3
        · exact hc
        · cases hp3
    · have hA : advanceFull s per (some per) [] = (per, some per, []) := by
        unfold advanceFull
        rw [if_neg (fun hcon => hc hcon.1)]
      rw [hA]
      exact Or.inl ⟨pre, rfl, rfl, dtLe_of_lt (not_dtLe_iff.mp hc), hpre⟩
  | q :: rest2, per, pre, hpre => by
    by_cases hc : dtLe per.period_end s
    · have hA : advanceFull s per (some per) (q :: rest2) =
          advanceFull s q (some q) rest2 := by
        conv_lhs => unfold advanceFull
        rw [if_pos ⟨hc, by simp⟩]
      rw [hA, show pre ++ per :: q :: rest2 = (pre ++ [per]) ++ q :: rest2
        from by simp]
      refine advanceFull_cursorInv s rest2 q (pre ++ [per]) ?_
      intro p hp
      rcases List.mem_append.mp hp with hp1 | hp2
      · exact hpre p hp1
      · rcases List.mem_cons.mp hp2 with rfl | hp3
        · exact hc
        · cases hp3
    · have hA : advanceFull s per (some per) (q :: rest2) =
          (per, some per, q :: rest2) := by
        unfold advanceFull
        rw [if_neg (fun hcon => hc hcon.1)]
      rw [hA]
      exact Or.inl ⟨pre, rfl, rfl, dtLe_of_lt (not_dtLe_iff.mp hc), hpre⟩

/-- Every bucket of the full walk trace carries the rates of the
pricing period active at its start, or of the last period once every
period has ended. -/
theorem walkTrace_rates {V : List String} {ps : List Period}
    {s e : DateTime} {bs : Option String} {tl : List Bucket}
    (hsort : List.Pairwise
      (fun a b : Period => dtLt a.period_end b.period_end) ps)
    (h : walkTrace V ps s e bs = some tl) :
    ∀ b ∈ tl, ∃ p : Period,
      (activePeriod ps b.start_date = some p ∨
        (activePeriod ps b.start_date = none ∧ ps.getLast? = some p)) ∧
      b.cpu_price = p.cpu_price ∧ b.volume_price = p.volume_price ∧
      b.image_price = p.image_price := by
  unfold walkTrace at h
  cases ps with
  | nil => cases h
  | cons p rest =>
    refine walkAll_rates e (resolveSize V bs) (p :: rest) hsort
      (fuelFor s e) s _ _ _ tl h (Or.inr ?_)
    exact advanceFull_cursorInv s rest p [] (by simp)

/-- C6: every bucket emitted by divide_time_range carries the rates of
the pricing period active at the bucket's start — the first period of
the end-sorted list whose end is strictly after the start, located by
the forward-only cursor — and for any bucket start at or beyond the
last period's end the last period's rates are reused, with no
error. -/
theorem c6_bucket_rates_active_period (V : List String) (ps : List Period)
    (s e : DateTime) (bs : Option String) (dr : List Bucket) (sz : String)
    (hsort : List.Pairwise
      (fun a b : Period => dtLt a.period_end b.period_end) ps)
    (h : divide_time_range V ps s e bs = some (dr, sz)) :
    ∀ b ∈ dr, ∃ p : Period,
      (activePeriod ps b.start_date = some p ∨
        (activePeriod ps b.start_date = none ∧ ps.getLast? = some p)) ∧
      b.cpu_price = p.cpu_price ∧ b.volume_price = p.volume_price ∧
      b.image_price = p.image_price := by
  rcases divide_some_walkTrace h with ⟨tl, hwt, hdr, _⟩
  intro b hb
  rw [hdr] at hb
  exact walkTrace_rates hsort hwt b (List.mem_of_mem_drop hb)

/-- Concrete C6 run: two pricing periods ending at days 1 and 3, a
daily walk over days 0–4; the day-0 bucket takes the first period's
rates, days 1 and 2 the second period's, and day 3 — past every
period's end — reuses the last period's rates. -/
theorem c6_bucket_rates_active_period_witness :
    List.Pairwise (fun a b : Period => dtLt a.period_end b.period_end)
      [⟨⟨-100, 0⟩, ⟨1, 0⟩, 1, 2, 3⟩, ⟨⟨1, 0⟩, ⟨3, 0⟩, 4, 5, 6⟩] ∧
    divide_time_range allSizes
      [⟨⟨-100, 0⟩, ⟨1, 0⟩, 1, 2, 3⟩, ⟨⟨1, 0⟩, ⟨3, 0⟩, 4, 5, 6⟩]
      ⟨0, 0⟩ ⟨4, 0⟩ (some "daily") =
      some ([⟨⟨0, 0⟩, ⟨1, 0⟩, 1, 2, 3⟩, ⟨⟨1, 0⟩, ⟨2, 0⟩, 4, 5, 6⟩,
        ⟨⟨2, 0⟩, ⟨3, 0⟩, 4, 5, 6⟩, ⟨⟨3, 0⟩, ⟨4, 0⟩, 4, 5, 6⟩], "daily") ∧
    ∀ b ∈ ([⟨⟨0, 0⟩, ⟨1, 0⟩, 1, 2, 3⟩, ⟨⟨1, 0⟩, ⟨2, 0⟩, 4, 5, 6⟩,
        ⟨⟨2, 0⟩, ⟨3, 0⟩, 4, 5, 6⟩, ⟨⟨3, 0⟩, ⟨4, 0⟩, 4, 5, 6⟩] :
        List Bucket), ∃ p : Period,
      (activePeriod [⟨⟨-100, 0⟩, ⟨1, 0⟩, 1, 2, 3⟩, ⟨⟨1, 0⟩, ⟨3, 0⟩, 4, 5, 6⟩]
          b.start_date = some p ∨
        (activePeriod
            [⟨⟨-100, 0⟩, ⟨1, 0⟩, 1, 2, 3⟩, ⟨⟨1, 0⟩, ⟨3, 0⟩, 4, 5, 6⟩]
            b.start_date = none ∧
          ([⟨⟨-100, 0⟩, ⟨1, 0⟩, 1, 2, 3⟩,
            ⟨⟨1, 0⟩, ⟨3, 0⟩, 4, 5, 6⟩] : List Period).getLast? = some p)) ∧
      b.cpu_price = p.cpu_price ∧ b.volume_price = p.volume_price ∧
      b.image_price = p.image_price :=
  ⟨by decide, by decide,
    c6_bucket_rates_active_period allSizes
      [⟨⟨-100, 0⟩, ⟨1, 0⟩, 1, 2, 3⟩, ⟨⟨1, 0⟩, ⟨3, 0⟩, 4, 5, 6⟩]
      ⟨0, 0⟩ ⟨4, 0⟩ (some "daily")
      [⟨⟨0, 0⟩, ⟨1, 0⟩, 1, 2, 3⟩, ⟨⟨1, 0⟩, ⟨2, 0⟩, 4, 5, 6⟩,
        ⟨⟨2, 0⟩, ⟨3, 0⟩, 4, 5, 6⟩, ⟨⟨3, 0⟩, ⟨4, 0⟩, 4, 5, 6⟩] "daily"
      (by decide) (by decide)⟩

/-- C10 witness input: an inverted two-day range. -/
theorem c10_inverted_range_witness :
    (([samplePeriod] : List Period) ≠ [] ∧ dtLt (⟨0, 0⟩ : DateTime) ⟨2, 0⟩) ∧
    (∃ b sz, divide_time_range allSizes [samplePeriod] ⟨2, 0⟩ ⟨0, 0⟩
        (some "daily") = some ([b], sz) ∧
      b.start_date = ⟨2, 0⟩ ∧ b.end_date = ⟨0, 0⟩) :=
  ⟨⟨by decide, by decide⟩,
    c10_inverted_range allSizes [samplePeriod] ⟨2, 0⟩ ⟨0, 0⟩ (some "daily")
      (by decide) (by decide)⟩

/-- C7: a newly created aggregate entry is anchored to the bucket
containing the triggering record's fromDate: its window is exactly
[start_of_bucket(t), next_bucket(start_of_bucket(t))), the toDate
being the same boundary the source computes as next_bucket(t) — never
the record's own raw window. -/
theorem c7_new_entry_window (size : String) (it : UsageItem)
    (ri : ReportItem) (h : createItem size it = some ri) :
    ri.fromDate = start_of_bucket size it.fromDate ∧
    ri.toDate = next_bucket size (start_of_bucket size it.fromDate) ∧
    ri.toDate = next_bucket size it.fromDate := by
  have hft : ri.fromDate = start_of_bucket size it.fromDate ∧
      ri.toDate = next_bucket size it.fromDate := by
    cases hu : it.user <;> cases hc : it.cpu <;> cases hcp : it.cpuPrice <;>
      cases hv : it.volume <;> cases hvp : it.volumePrice <;>
      cases hip : it.imagePrice <;>
      simp [createItem, hu, hc, hcp, hv, hvp, hip] at h <;>
      subst h <;> exact ⟨rfl, rfl⟩
  exact ⟨hft.1, by rw [hft.2, next_bucket_start_of_bucket], hft.2⟩

/-- Concrete C7 run: a weekly entry created from a Wednesday record
with a nonzero time of day is anchored to the enclosing
Monday-to-Monday week. -/
theorem c7_new_entry_window_witness :
    createItem "weekly" c7Item = some c7Entry ∧
    (c7Entry.fromDate = start_of_bucket "weekly" c7Item.fromDate ∧
      c7Entry.toDate =
        next_bucket "weekly" (start_of_bucket "weekly" c7Item.fromDate) ∧
      c7Entry.toDate = next_bucket "weekly" c7Item.fromDate) :=
  ⟨by decide, c7_new_entry_window "weekly" c7Item c7Entry (by decide)⟩

/-- C5 (amended): scope resolution of generate_report_data. When the
requested viewing-user equals the caller, billing projects are merged
into the user projects and billing_projects becomes the singleton
list containing the empty string; when the viewing-user differs from
the caller, the user projects become the billing projects and
billing_projects again becomes that singleton; when no viewing-user
is requested, the effective user is the caller and both partitioned
scopes are kept unchanged. (The spec instead describes
billing_projects as cleared to the empty list.) -/
theorem c5_scope_resolution (roleMap : List (String × List String))
    (projectList : List String) (userId u : String)
    (bp up : List String) :
    (u = userId → resolveScope (some u) userId bp up =
      ([""], up ++ bp, u)) ∧
    (u ≠ userId → resolveScope (some u) userId bp up = ([""], bp, u)) ∧
    resolveScope none userId (partitionProjects roleMap projectList).1
        (partitionProjects roleMap projectList).2 =
      ((partitionProjects roleMap projectList).1,
        (partitionProjects roleMap projectList).2, userId) := by
  refine ⟨fun he => ?_, fun hne => ?_, rfl⟩
  · simp [resolveScope, he]
  · simp [resolveScope, hne]

/-- Concrete C5 runs covering the three branches of scope
resolution. -/
theorem c5_scope_resolution_witness :
    resolveScope (some "alice") "alice" ["pb"] ["pu"] =
      ([""], ["pu", "pb"], "alice") ∧
    resolveScope (some "bob") "alice" ["pb"] ["pu"] =
      ([""], ["pb"], "bob") ∧
    resolveScope none "alice"
        (partitionProjects [("pb", ["billing"]), ("pu", ["member"])]
          ["pb", "pu"]).1
        (partitionProjects [("pb", ["billing"]), ("pu", ["member"])]
          ["pb", "pu"]).2 =
      ((partitionProjects [("pb", ["billing"]), ("pu", ["member"])]
          ["pb", "pu"]).1,
        (partitionProjects [("pb", ["billing"]), ("pu", ["member"])]
          ["pb", "pu"]).2, "alice") :=
  ⟨(c5_scope_resolution [] [] "alice" "alice" ["pb"] ["pu"]).1 rfl,
    (c5_scope_resolution [] [] "alice" "bob" ["pb"] ["pu"]).2.1
      (by decide),
    (c5_scope_resolution [("pb", ["billing"]), ("pu", ["member"])]
      ["pb", "pu"] "alice" "bob" ["x"] ["y"]).2.2⟩

/-- C5 counterexample to the claim as stated: after scope restriction
billing_projects is the singleton list containing the empty string,
not the empty list, so the code differs from the specification's
reading at every viewing-user request. -/
theorem c5_cleared_empty_counterexample :
    (resolveScope (some "bob") "alice" ["pb"] ["pu"]).1 = [""] ∧
    (resolveScope (some "bob") "alice" ["pb"] ["pu"]).1 ≠
      ([] : List String) ∧
    resolveScope (some "bob") "alice" ["pb"] ["pu"] ≠
      resolveScopeSpec (some "bob") "alice" ["pb"] ["pu"] ∧
    resolveScope (some "alice") "alice" ["pb"] ["pu"] ≠
      resolveScopeSpec (some "alice") "alice" ["pb"] ["pu"] := by
  refine ⟨rfl, by decide, by decide, by decide⟩

theorem matchesItem_user {size : String} {ri : ReportItem}
    {it : UsageItem} (h : matchesItem size ri it = true) :
    ri.user = it.user := by
  simp [matchesItem] at h
  exact h.1.1

theorem createItem_user (size : String) (it : UsageItem)
    (ri : ReportItem) (h : createItem size it = some ri) :
    ri.user = it.user ∧
    (ri.user ≠ none → ri.image = none ∧ ri.imageCost = none) := by
  cases hu : it.user <;> cases hc : it.cpu <;> cases hcp : it.cpuPrice <;>
    cases hv : it.volume <;> cases hvp : it.volumePrice <;>
    cases hip : it.imagePrice <;>
    simp [createItem, hu, hc, hcp, hv, hvp, hip] at h <;>
    subst h <;>
    first
      | exact ⟨rfl, fun _ => ⟨rfl, rfl⟩⟩
      | exact ⟨rfl, fun hcon => absurd rfl hcon⟩

theorem mergeItem_user (it : UsageItem) (ri ri2 : ReportItem)
    (h : mergeItem it ri = some ri2) :
    ri2.user = ri.user ∧
    (ri.user ≠ none → ri2.image = ri.image ∧ ri2.imageCost = ri.imageCost)
    := by
  cases hu : ri.user <;> rw [mergeItem] at h <;> rw [hu] at h
  · rcases hri : ri.image with _ | a <;> rw [hri] at h <;>
      rcases hrc : ri.imageCost with _ | c <;> rw [hrc] at h <;>
      rcases hib : it.image with _ | b <;> rw [hib] at h <;>
      rcases hip : it.imagePrice with _ | p <;> rw [hip] at h <;>
      simp at h
    subst h
    first
      | exact ⟨rfl, fun hcon => absurd rfl hcon⟩
      | exact ⟨hu, fun hcon => absurd rfl hcon⟩
  · cases hc : it.cpu <;> cases hcp : it.cpuPrice <;>
      cases hv : it.volume <;> cases hvp : it.volumePrice <;>
      simp [hc, hcp, hv, hvp] at h <;>
      subst h <;>
      first
        | exact ⟨rfl, fun _ => ⟨rfl, rfl⟩⟩
        | exact ⟨hu, fun _ => ⟨rfl, rfl⟩⟩

theorem sortStep_image_inv (size : String) :
    ∀ (r : List ReportItem) (it : UsageItem) (r2 : List ReportItem),
      sort_results_into_buckets size r it = some r2 →
      (∀ e ∈ r, e.user ≠ none → e.image = none ∧ e.imageCost = none) →
      ∀ e ∈ r2, e.user ≠ none → e.image = none ∧ e.imageCost = none
  | [], it, r2, h, hP => by
    rw [sort_results_into_buckets] at h
    rcases hcr : createItem size it with _ | ni <;> rw [hcr] at h <;>
      simp at h
    subst h
    intro e he hne
    rw [List.mem_singleton] at he
    subst he
    exact (createItem_user size it e hcr).2 hne
  | ri :: rest, it, r2, h, hP => by
    rw [sort_results_into_buckets] at h
    by_cases hm : matchesItem size ri it = true
    · rw [if_pos hm] at h
      rcases hmg : mergeItem it ri with _ | ri2 <;> rw [hmg] at h <;>
        simp at h
      subst h
      intro e he hne
      rcases List.mem_cons.mp he with rfl | he2
      · have hmu := mergeItem_user it ri e hmg
        have hrine : ri.user ≠ none := by
          rw [← hmu.1]
          exact hne
        have himg := hmu.2 hrine
        have hri := hP ri (by simp) hrine
        exact ⟨himg.1.trans hri.1, himg.2.trans hri.2⟩
      · exact hP e (List.mem_cons_of_mem _ he2) hne
    · rw [if_neg hm] at h
      rcases hrec : sort_results_into_buckets size rest it with _ | r3 <;>
        rw [hrec] at h <;> simp at h
      subst h
      intro e he hne
      rcases List.mem_cons.mp he with rfl | he2
      · exact hP e (by simp) hne
      · exact sortStep_image_inv size rest it r3 hrec
          (fun x hx => hP x (List.mem_cons_of_mem _ hx)) e he2 hne

theorem sortFold_image_inv (size : String) :
    ∀ (items : List UsageItem) (r r2 : List ReportItem),
      sortFold size r items = some r2 →
      (∀ e ∈ r, e.user ≠ none → e.image = none ∧ e.imageCost = none) →
      ∀ e ∈ r2, e.user ≠ none → e.image = none ∧ e.imageCost = none
  | [], r, r2, h, hP => by
    rw [sortFold] at h
    simp at h
    subst h
    exact hP
  | it :: rest, r, r2, h, hP => by
    rw [sortFold] at h
    rcases hs : sort_results_into_buckets size r it with _ | r3 <;>
      rw [hs] at h
    · cases h
    · exact sortFold_image_inv size rest r3 r2 h
        (sortStep_image_inv size r it r3 hs hP)

/-- C8: an image record carries no user, so the match test only lets
it merge into an entry whose user is null; consequently, over any
record sequence, every aggregated entry with a non-null user has no
image quantity and no image cost — image usage accumulates only into
(projectId, bucket)-keyed null-user entries. -/
theorem c8_image_only_null_user (size : String) (items : List UsageItem)
    (r : List ReportItem) (h : report_reduce size items = some r) :
    (∀ (ri : ReportItem) (it : UsageItem),
      matchesItem size ri it = true → it.user = none → ri.user = none) ∧
    ∀ e ∈ r, e.user ≠ none → e.image = none ∧ e.imageCost = none := by
  constructor
  · intro ri it hm hit
    rw [matchesItem_user hm, hit]
  · exact sortFold_image_inv size items [] r h (by simp)

/-- Concrete C8 run: a single user-scoped record aggregates to an
entry with neither image quantity nor image cost. -/
theorem c8_image_only_null_user_witness :
    report_reduce "daily" [c8Item] = some [c8Entry] ∧
    ((∀ (ri : ReportItem) (it : UsageItem),
      matchesItem "daily" ri it = true → it.user = none →
        ri.user = none) ∧
    ∀ e ∈ [c8Entry], e.user ≠ none →
      e.image = none ∧ e.imageCost = none) :=
  ⟨by decide,
    c8_image_only_null_user "daily" [c8Item] [c8Entry] (by decide)⟩

/-- C9: every cost increment is computed from the integer truncation
of the record's quantity, as Python int(Decimal): parse_decimal
truncates a Decimal toward zero and maps a missing (None) quantity to
0; a merge adds the raw quantity to the running total but
round(trunc(q) × rate, 4) to the running cost; a new entry stores the
truncated quantity and cost round(trunc(q) × rate, 4). Truncation is
toward zero: 2.7 becomes 2 and -2.7 becomes -2. -/
theorem c9_truncated_quantities (size : String) (it : UsageItem)
    (ri ri2 rc : ReportItem) (u : String) (q p : Rat)
    (hru : ri.user = some u) (hq : it.cpu = some q)
    (hp : it.cpuPrice = some p) (hm : mergeItem it ri = some ri2)
    (hiu : it.user = some u) (hcr : createItem size it = some rc) :
    parse_decimal it.cpu = ((ratTrunc q : Int) : Rat) ∧
    parse_decimal none = 0 ∧
    ri2.cpu = some (ri.cpu.getD 0 + q) ∧
    ri2.cpuCost = some (ri.cpuCost.getD 0 +
      pyround4 (((ratTrunc q : Int) : Rat) * p)) ∧
    rc.cpu = some ((ratTrunc q : Int) : Rat) ∧
    rc.cpuCost = some (pyround4 (((ratTrunc q : Int) : Rat) * p)) ∧
    ratTrunc (mkRat 27 10) = 2 ∧ ratTrunc (mkRat (-27) 10) = -2 := by
  have hmerge : ri2.cpu = some (ri.cpu.getD 0 + q) ∧
      ri2.cpuCost = some (ri.cpuCost.getD 0 +
        pyround4 (((ratTrunc q : Int) : Rat) * p)) := by
    rw [mergeItem, hru] at hm
    cases hv : it.volume <;> cases hvp : it.volumePrice <;>
      simp [hq, hp, hv, hvp] at hm <;> subst hm <;> exact ⟨rfl, rfl⟩
  have hcreate : rc.cpu = some ((ratTrunc q : Int) : Rat) ∧
      rc.cpuCost = some (pyround4 (((ratTrunc q : Int) : Rat) * p)) := by
    cases hv : it.volume <;> cases hvp : it.volumePrice <;>
      simp [createItem, hiu, hq, hp, hv, hvp] at hcr <;> subst hcr <;>
      exact ⟨rfl, rfl⟩
  refine ⟨by rw [hq]; rfl, rfl, hmerge.1, hmerge.2, hcreate.1,
    hcreate.2, by decide, by decide⟩

/-- Concrete C9 run: quantity 2.7 at rate 2 merges into an entry
holding quantity 5 and cost 10: the quantity becomes the exact 7.7
but the cost becomes 10 + round(2 × 2, 4) = 14; created alone, the
entry stores quantity 2 and cost 4. -/
theorem c9_truncated_quantities_witness :
    c9Entry.user = some "bob" ∧ c9Item.cpu = some (mkRat 27 10) ∧
    c9Item.cpuPrice = some 2 ∧
    mergeItem c9Item c9Entry = some c9Entry2 ∧
    c9Item.user = some "bob" ∧
    createItem "daily" c9Item = some c9Entry3 ∧
    (parse_decimal c9Item.cpu = ((ratTrunc (mkRat 27 10) : Int) : Rat) ∧
      parse_decimal none = 0 ∧
      c9Entry2.cpu = some (c9Entry.cpu.getD 0 + mkRat 27 10) ∧
      c9Entry2.cpuCost = some (c9Entry.cpuCost.getD 0 +
        pyround4 (((ratTrunc (mkRat 27 10) : Int) : Rat) * 2)) ∧
      c9Entry3.cpu = some ((ratTrunc (mkRat 27 10) : Int) : Rat) ∧
      c9Entry3.cpuCost = some
        (pyround4 (((ratTrunc (mkRat 27 10) : Int) : Rat) * 2)) ∧
      ratTrunc (mkRat 27 10) = 2 ∧ ratTrunc (mkRat (-27) 10) = -2) := by
  have hm : mergeItem c9Item c9Entry = some c9Entry2 := by
    simp [mergeItem, c9Item, c9Entry, c9Entry2, parse_decimal, ratTrunc]
    norm_num [pyround4]
  have hc : createItem "daily" c9Item = some c9Entry3 := by
    simp [createItem, c9Item, c9Entry3, parse_decimal, ratTrunc,
      start_of_bucket, next_bucket]
    norm_num [pyround4]
  exact ⟨rfl, rfl, rfl, hm, rfl, hc,
    c9_truncated_quantities "daily" c9Item c9Entry c9Entry2 c9Entry3
      "bob" (mkRat 27 10) 2 rfl rfl rfl hm rfl hc⟩

/-- C4: a merge adds round(quantity × rate, 4) to the running cost —
the rounding is applied at each increment, never once over the final
sum; three quantity-1 records at rate 0.12345 aggregate to cumulative
cost 3 × round(0.12345, 4) = 3 × 0.1235 = 0.3705, which differs from
round(3 × 0.12345, 4) = 0.3704. -/
theorem c4_incremental_rounding (it : UsageItem) (ri ri2 : ReportItem)
    (u : String) (q p : Rat) (hru : ri.user = some u)
    (hq : it.cpu = some q) (hp : it.cpuPrice = some p)
    (hm : mergeItem it ri = some ri2) :
    ri2.cpuCost = some (ri.cpuCost.getD 0 +
      pyround4 (parse_decimal it.cpu * p)) ∧
    (report_reduce "daily" [c4Item, c4Item, c4Item]).map
      (List.map ReportItem.cpuCost) = some [some (mkRat 3705 10000)] ∧
    pyround4 (1 * mkRat 12345 100000) = mkRat 1235 10000 ∧
    (3 : Rat) * mkRat 1235 10000 = mkRat 3705 10000 ∧
    pyround4 (3 * mkRat 12345 100000) = mkRat 3704 10000 ∧
    mkRat 3705 10000 ≠ mkRat 3704 10000 := by
  refine ⟨?_, ?_, ?_, ?_, ?_, by decide⟩
  · rw [mergeItem, hru] at hm
    rw [hq]
    cases hv : it.volume <;> cases hvp : it.volumePrice <;>
      simp [hq, hp, hv, hvp] at hm <;> subst hm <;> rfl
  · simp [report_reduce, sortFold, sort_results_into_buckets, createItem,
      mergeItem, matchesItem, c4Item, parse_decimal, ratTrunc,
      same_bucket, start_of_bucket, next_bucket]
    norm_num [pyround4]
  · norm_num [pyround4]
  · norm_num
  · norm_num [pyround4]

/-- Concrete C4 run: merging a second quantity-1 record at rate
0.12345 into the entry holding cost 0.1235 yields cost 0.2470 — the
per-increment rounding of the formula. -/
theorem c4_incremental_rounding_witness :
    c4Entry1.user = some "alice" ∧ c4Item.cpu = some 1 ∧
    c4Item.cpuPrice = some (mkRat 12345 100000) ∧
    mergeItem c4Item c4Entry1 = some c4Entry2 ∧
    (c4Entry2.cpuCost = some (c4Entry1.cpuCost.getD 0 +
        pyround4 (parse_decimal c4Item.cpu * mkRat 12345 100000)) ∧
      (report_reduce "daily" [c4Item, c4Item, c4Item]).map
        (List.map ReportItem.cpuCost) = some [some (mkRat 3705 10000)] ∧
      pyround4 (1 * mkRat 12345 100000) = mkRat 1235 10000 ∧
      (3 : Rat) * mkRat 1235 10000 = mkRat 3705 10000 ∧
      pyround4 (3 * mkRat 12345 100000) = mkRat 3704 10000 ∧
      mkRat 3705 10000 ≠ mkRat 3704 10000) := by
  have hm : mergeItem c4Item c4Entry1 = some c4Entry2 := by
    simp [mergeItem, c4Item, c4Entry1, c4Entry2, parse_decimal, ratTrunc]
    norm_num [pyround4]
  exact ⟨rfl, rfl, rfl, hm,
    c4_incremental_rounding c4Item c4Entry1 c4Entry2 "alice" 1
      (mkRat 12345 100000) rfl rfl rfl hm⟩

end Billing
